import Mathlib

/-!
Verification development for the AI-Powered-Code-Review-Assistant repository.

The Python sources under `app/` are shallowly embedded here:
* Python `str` values are modelled as Lean `String` (a list of characters),
  and `bytes` values as `List Nat`.
* `json.loads` is modelled by the executable parser `jsonLoads` below,
  faithful to the strict JSON grammar accepted by Python's `json` module
  (including `NaN`/`Infinity` literals and last-key-wins duplicate keys);
  non-integral number tokens are kept syntactically in the `Json.big`
  constructor, since no code under verification inspects their value.
* Python exceptions are modelled with `Except`: an uncaught exception is an
  `Except.error` value, and `try`/`except` blocks are rendered as matches on
  the `Except` value produced by the guarded code.
-/

/-- A JSON value as produced by Python's `json.loads`. -/
inductive Json where
  | null
  | bool (b : Bool)
  | num (n : Int)
  | big (tok : String)
  | str (s : String)
  | arr (xs : List Json)
  | obj (fields : List (String × Json))
deriving Repr

/-- Python exceptions that the embedded code can raise. -/
inductive PyExc where
  | valueError (msg : String)
  | keyError (key : String)
  | typeError (msg : String)
  | httpError (code : Nat) (detail : String)
  | jsonDecodeError
  | genericError (msg : String)
deriving DecidableEq, Repr

/-- JSON whitespace characters (as in Python's `json` module). -/
def jsonWs (c : Char) : Bool :=
  c == ' ' || c == '\t' || c == '\n' || c == '\r'

/-- Whitespace stripped by Python's `str.strip()`. -/
def pyWs (c : Char) : Bool :=
  c == ' ' || c == '\t' || c == '\n' || c == '\r' || c == '\x0b' || c == '\x0c'

def skipWs (l : List Char) : List Char := l.dropWhile jsonWs

/-- Python `text[:n]` for a nonnegative `n`. -/
def pyTake (s : String) (n : Nat) : String := ⟨s.data.take n⟩

/-- `needle.isPrefixOf`-style search used to model Python `str.find`:
returns the least index `≥ i` (counted from the original start) at which
`needle` occurs in the remaining text `l`, or `-1`. -/
def findSubAux (needle : List Char) : List Char → Nat → Int
  | l, i =>
    if needle.isPrefixOf l then Int.ofNat i
    else
      match l with
      | [] => -1
      | _ :: t => findSubAux needle t (i + 1)

/-- Python `haystack.find(needle, start)` (for a nonnegative `start`). -/
def strFindFrom (s sub : String) (start : Nat) : Int :=
  findSubAux sub.data (s.data.drop start) start

/-- Python `haystack.find(needle)`. -/
def strFind (s sub : String) : Int := strFindFrom s sub 0

def rfindSubAux (needle : List Char) : List Char → Nat → Int → Int
  | l, i, best =>
    let best' := if needle.isPrefixOf l then Int.ofNat i else best
    match l with
    | [] => best'
    | _ :: t => rfindSubAux needle t (i + 1) best'

/-- Python `haystack.rfind(needle)`. -/
def strRFind (s sub : String) : Int := rfindSubAux sub.data s.data 0 (-1)

/-- Python `needle in haystack` substring containment. -/
def containsSubstr (s sub : String) : Bool := strFind s sub != -1

/-- Python slicing `s[a:b]` with full index normalization
(negative indices count from the end; out-of-range indices are clamped). -/
def pySliceII (s : String) (a b : Int) : String :=
  let n : Int := s.data.length
  let a' : Int := if a < 0 then max 0 (n + a) else min a n
  let b' : Int := if b < 0 then max 0 (n + b) else min b n
  ⟨(s.data.take b'.toNat).drop a'.toNat⟩

/-- Python `s.strip()`. -/
def pyStrip (s : String) : String :=
  ⟨((s.data.dropWhile pyWs).reverse.dropWhile pyWs).reverse⟩

def hexVal (c : Char) : Option Nat :=
  if '0' ≤ c ∧ c ≤ '9' then some (c.toNat - '0'.toNat)
  else if 'a' ≤ c ∧ c ≤ 'f' then some (c.toNat - 'a'.toNat + 10)
  else if 'A' ≤ c ∧ c ≤ 'F' then some (c.toNat - 'A'.toNat + 10)
  else none

/-- Parse the contents of a JSON string literal after the opening quote.
Returns the decoded characters and the input remaining after the closing
quote.  Uses fuel for termination; callers supply enough fuel. -/
def parseStrContent : Nat → List Char → Option (List Char × List Char)
  | 0, _ => none
  | _ + 1, [] => none
  | fuel + 1, c :: t =>
    if c == '"' then some ([], t)
    else if c == '\\' then
      match t with
      | [] => none
      | e :: t' =>
        if e == '"' then (parseStrContent fuel t').map (fun (r, rest) => ('"' :: r, rest))
        else if e == '\\' then (parseStrContent fuel t').map (fun (r, rest) => ('\\' :: r, rest))
        else if e == '/' then (parseStrContent fuel t').map (fun (r, rest) => ('/' :: r, rest))
        else if e == 'b' then (parseStrContent fuel t').map (fun (r, rest) => ('\x08' :: r, rest))
        else if e == 'f' then (parseStrContent fuel t').map (fun (r, rest) => ('\x0c' :: r, rest))
        else if e == 'n' then (parseStrContent fuel t').map (fun (r, rest) => ('\n' :: r, rest))
        else if e == 'r' then (parseStrContent fuel t').map (fun (r, rest) => ('\r' :: r, rest))
        else if e == 't' then (parseStrContent fuel t').map (fun (r, rest) => ('\t' :: r, rest))
        else if e == 'u' then
          match t' with
          | h1 :: h2 :: h3 :: h4 :: t'' =>
            match hexVal h1, hexVal h2, hexVal h3, hexVal h4 with
            | some v1, some v2, some v3, some v4 =>
              let v := ((v1 * 16 + v2) * 16 + v3) * 16 + v4
              -- surrogate pairs are combined as Python's json module does;
              -- a lone surrogate degenerates to Char.ofNat's fallback.
              if 0xD800 ≤ v ∧ v ≤ 0xDBFF then
                match t'' with
                | '\\' :: 'u' :: g1 :: g2 :: g3 :: g4 :: t3 =>
                  match hexVal g1, hexVal g2, hexVal g3, hexVal g4 with
                  | some w1, some w2, some w3, some w4 =>
                    let w := ((w1 * 16 + w2) * 16 + w3) * 16 + w4
                    if 0xDC00 ≤ w ∧ w ≤ 0xDFFF then
                      let cp := 0x10000 + (v - 0xD800) * 0x400 + (w - 0xDC00)
                      (parseStrContent fuel t3).map (fun (r, rest) => (Char.ofNat cp :: r, rest))
                    else
                      (parseStrContent fuel t'').map (fun (r, rest) => (Char.ofNat v :: r, rest))
                  | _, _, _, _ =>
                    (parseStrContent fuel t'').map (fun (r, rest) => (Char.ofNat v :: r, rest))
                | _ =>
                  (parseStrContent fuel t'').map (fun (r, rest) => (Char.ofNat v :: r, rest))
              else
                (parseStrContent fuel t'').map (fun (r, rest) => (Char.ofNat v :: r, rest))
            | _, _, _, _ => none
          | _ => none
        else none
    else if c.toNat < 32 then none
    else (parseStrContent fuel t).map (fun (r, rest) => (c :: r, rest))

def digitsToNat (l : List Char) : Nat :=
  l.foldl (fun acc c => acc * 10 + (c.toNat - '0'.toNat)) 0

/-- Parse a JSON number token (strict grammar: `-? (0 | [1-9][0-9]*)` with
optional fraction and exponent).  Integral tokens become `Json.num`,
non-integral ones are kept syntactically as `Json.big`. -/
def parseNum (l : List Char) : Option (Json × List Char) :=
  let (neg, l1) := match l with
    | '-' :: t => (true, t)
    | _ => (false, l)
  match l1 with
  | [] => none
  | c :: _ =>
    if !c.isDigit then none
    else
      let intDigits := if c == '0' then ['0'] else l1.takeWhile Char.isDigit
      let l2 := l1.drop intDigits.length
      let (fracDigits, l3) := match l2 with
        | '.' :: t =>
          let ds := t.takeWhile Char.isDigit
          if ds.isEmpty then ([], l2) else (ds, t.drop ds.length)
        | _ => ([], l2)
      let (expDigits, l4) := match l3 with
        | e :: t =>
          if e == 'e' || e == 'E' then
            let (_, t1) := match t with
              | s :: t' => if s == '+' || s == '-' then (true, t') else (false, t)
              | [] => (false, t)
            let ds := t1.takeWhile Char.isDigit
            if ds.isEmpty then ([], l3) else (ds, t1.drop ds.length)
          else ([], l3)
        | [] => ([], l3)
      if fracDigits.isEmpty ∧ expDigits.isEmpty then
        let v : Int := Int.ofNat (digitsToNat intDigits)
        some (Json.num (if neg then -v else v), l2)
      else
        let tokLen := l.length - l4.length
        some (Json.big ⟨l.take tokLen⟩, l4)

/-- Insert a key into an object, Python-`dict` style: a repeated key keeps
its original position but takes the new value. -/
def objInsert (fs : List (String × Json)) (k : String) (v : Json) :
    List (String × Json) :=
  if fs.any (fun p => p.1 == k) then
    fs.map (fun p => if p.1 == k then (k, v) else p)
  else fs ++ [(k, v)]

mutual

/-- Parse one JSON value from the front of `l` (no leading whitespace). -/
def parseVal : Nat → List Char → Option (Json × List Char)
  | 0, _ => none
  | _ + 1, [] => none
  | fuel + 1, l@(c :: t) =>
    if ['n', 'u', 'l', 'l'].isPrefixOf l then some (Json.null, l.drop 4)
    else if ['t', 'r', 'u', 'e'].isPrefixOf l then some (Json.bool true, l.drop 4)
    else if ['f', 'a', 'l', 's', 'e'].isPrefixOf l then some (Json.bool false, l.drop 5)
    else if ['N', 'a', 'N'].isPrefixOf l then some (Json.big "NaN", l.drop 3)
    else if ['I', 'n', 'f', 'i', 'n', 'i', 't', 'y'].isPrefixOf l then
      some (Json.big "Infinity", l.drop 8)
    else if ['-', 'I', 'n', 'f', 'i', 'n', 'i', 't', 'y'].isPrefixOf l then
      some (Json.big "-Infinity", l.drop 9)
    else if c == '"' then
      (parseStrContent (t.length + 1) t).map (fun (r, rest) => (Json.str ⟨r⟩, rest))
    else if c == '[' then
      match skipWs t with
      | ']' :: rest => some (Json.arr [], rest)
      | t' => (parseArrItems fuel t').map (fun (xs, rest) => (Json.arr xs, rest))
    else if c == '{' then
      match skipWs t with
      | '}' :: rest => some (Json.obj [], rest)
      | t' =>
        (parseObjItems fuel t').map
          (fun (ps, rest) =>
            (Json.obj (ps.foldl (fun fs p => objInsert fs p.1 p.2) []), rest))
    else parseNum l

/-- Parse the (nonempty) items of an array, starting at the first item. -/
def parseArrItems : Nat → List Char → Option (List Json × List Char)
  | 0, _ => none
  | fuel + 1, l =>
    match parseVal fuel l with
    | none => none
    | some (v, rest) =>
      match skipWs rest with
      | ',' :: rest' => (parseArrItems fuel (skipWs rest')).map
          (fun (xs, r) => (v :: xs, r))
      | ']' :: rest' => some ([v], rest')
      | _ => none

/-- Parse the (nonempty) members of an object, starting at the first key. -/
def parseObjItems : Nat → List Char → Option (List (String × Json) × List Char)
  | 0, _ => none
  | fuel + 1, l =>
    match l with
    | '"' :: t =>
      match parseStrContent (t.length + 1) t with
      | none => none
      | some (k, rest) =>
        match skipWs rest with
        | ':' :: rest' =>
          match parseVal fuel (skipWs rest') with
          | none => none
          | some (v, rest'') =>
            match skipWs rest'' with
            | ',' :: rest3 => (parseObjItems fuel (skipWs rest3)).map
                (fun (ps, r) => ((⟨k⟩, v) :: ps, r))
            | '}' :: rest3 => some ([(⟨k⟩, v)], rest3)
            | _ => none
        | _ => none
    | _ => none

end

/-- Model of Python's `json.loads`: `none` models a raised
`json.JSONDecodeError`. -/
def jsonLoads (s : String) : Option Json :=
  match parseVal (s.data.length + 1) (skipWs s.data) with
  | some (v, rest) => if skipWs rest matches [] then some v else none
  | none => none

example : jsonLoads "\x7b\"summary\":\"ok\",\"issues\":[]\x7d" =
    some (Json.obj [("summary", Json.str "ok"), ("issues", Json.arr [])]) := by
  rfl

example : jsonLoads "" = none := by rfl

example : jsonLoads " [1, -2, null, true] " =
    some (Json.arr [Json.num 1, Json.num (-2), Json.null, Json.bool true]) := by
  rfl

example : jsonLoads "\x7b\"a\": 1\x7d x" = none := by rfl

/-!
## `app/ai_reviewer.py` — `parse_ai_response`

The Python function first tries `json.loads` on the whole response (its
`JSONDecodeError` is caught and ignored).  A second `try` block then holds
three extraction strategies; any `JSONDecodeError`/`ValueError` raised inside
it falls to the shared `except` and from there to the fixed fallback value.
In the source, the first-brace/last-brace attempt lexically follows the two
fenced-block branches without an `else`, but it is reachable only when
neither fence marker occurs in the text, because each fenced branch either
returns or raises; the `else`-chain below is an exact rendering of that
control flow.
-/

/-- `json.loads` lifted into the exception model: `.error` is a raised
`json.JSONDecodeError`. -/
def jsonLoadsE (s : String) : Except PyExc Json :=
  match jsonLoads s with
  | some j => Except.ok j
  | none => Except.error PyExc.jsonDecodeError

/-- The body of the second `try` block of `parse_ai_response`
(lines 126-153 of `ai_reviewer.py`).  `.ok (some r)` models `return result`,
`.ok none` models falling off the end of the block without returning, and
`.error` models a raised decoding error. -/
def extractJson (text : String) : Except PyExc (Option Json) :=
  if containsSubstr text "```json" then
    (jsonLoadsE (pyStrip (pySliceII text (strFind text "```json" + 7)
      (strFindFrom text "```" (strFind text "```json" + 7).toNat)))).map some
  else if containsSubstr text "```" then
    (jsonLoadsE (pyStrip (pySliceII text (strFind text "```" + 3)
      (strFindFrom text "```" (strFind text "```" + 3).toNat)))).map some
  else
    if strFind text "\x7b" != -1 && strRFind text "\x7d" + 1 != 0 then
      (jsonLoadsE (pySliceII text (strFind text "\x7b") (strRFind text "\x7d" + 1))).map some
    else Except.ok none

/-- The fixed fallback dictionary returned when all parsing fails
(lines 159-169 of `ai_reviewer.py`). -/
def parseFallback (text : String) : Json :=
  Json.obj
    [("summary", Json.str "Review completed but response parsing failed."),
     ("issues", Json.arr
       [Json.obj
         [("severity", Json.str "Low"),
          ("message", Json.str "AI response could not be parsed"),
          ("suggestion", Json.str "Check the raw AI output for details")]]),
     ("raw_response", Json.str (pyTake text 500))]

/-- `parse_ai_response` (lines 101-169 of `ai_reviewer.py`).  Total: both
`except` sites catch exactly the decoding errors that can be raised, so the
embedding returns a plain `Json` value on every input. -/
def parse_ai_response (response_text : String) : Json :=
  match jsonLoadsE response_text with
  | Except.ok result => result
  | Except.error _ =>
    match extractJson response_text with
    | Except.ok (some result) => result
    | Except.ok none => parseFallback response_text
    | Except.error _ => parseFallback response_text

/-- The candidate substring handed to `json.loads` by the fenced-block
strategies (strategy 2 if a ```` ```json ```` marker occurs, else strategy 3
if a plain ```` ``` ```` marker occurs), as the spec describes them. -/
def fencedCand (text : String) : Option String :=
  if containsSubstr text "```json" then
    some (pyStrip (pySliceII text (strFind text "```json" + 7)
      (strFindFrom text "```" (strFind text "```json" + 7).toNat)))
  else if containsSubstr text "```" then
    some (pyStrip (pySliceII text (strFind text "```" + 3)
      (strFindFrom text "```" (strFind text "```" + 3).toNat)))
  else none

/-- The candidate substring of the first-`{`/last-`}` strategy (strategy 4),
when both braces occur. -/
def braceCand (text : String) : Option String :=
  if strFind text "\x7b" != -1 && strRFind text "\x7d" + 1 != 0 then
    some (pySliceII text (strFind text "\x7b") (strRFind text "\x7d" + 1))
  else none

/-- Field lookup on a JSON object (`none` on other values or missing key). -/
def jGet? (j : Json) (k : String) : Option Json :=
  match j with
  | Json.obj fs => (fs.find? (fun p => p.1 == k)).map (fun p => p.2)
  | _ => none

example :
    parse_ai_response "Sure! Here you go: \x7b\"summary\":\"fine\",\"issues\":[]\x7d thanks" =
      Json.obj [("summary", Json.str "fine"), ("issues", Json.arr [])] := by rfl

example :
    parse_ai_response "```json\n\x7b\"summary\":\"x\",\"issues\":[\x7b\"severity\":\"High\",\"message\":\"m\",\"suggestion\":\"s\"\x7d]\x7d\n```" =
      Json.obj [("summary", Json.str "x"),
        ("issues", Json.arr [Json.obj [("severity", Json.str "High"),
          ("message", Json.str "m"), ("suggestion", Json.str "s")]])] := by rfl

/-- C2: whenever the direct parse and every applicable extraction-strategy
candidate fail to parse, `parse_ai_response` returns exactly the fixed
fallback value, with `raw_response` the first 500 characters of the input.
(The "never raises" half of the claim is embedded in the type: both `except`
sites of the source catch every error the guarded code can raise, so the
embedding is a total function into `Json`.) -/
theorem c2_parse_fallback (s : String)
    (h1 : jsonLoads s = none)
    (h2 : ∀ c, fencedCand s = some c → jsonLoads c = none)
    (h3 : ∀ c, braceCand s = some c → jsonLoads c = none) :
    parse_ai_response s =
      Json.obj
        [("summary", Json.str "Review completed but response parsing failed."),
         ("issues", Json.arr
           [Json.obj
             [("severity", Json.str "Low"),
              ("message", Json.str "AI response could not be parsed"),
              ("suggestion", Json.str "Check the raw AI output for details")]]),
         ("raw_response", Json.str (pyTake s 500))] := by
  have e1 : jsonLoadsE s = Except.error PyExc.jsonDecodeError := by
    unfold jsonLoadsE; rw [h1]
  unfold parse_ai_response
  rw [e1]
  unfold extractJson
  by_cases hj : containsSubstr s "```json" = true
  · have hc := h2 _ (by unfold fencedCand; rw [if_pos hj])
    rw [if_pos hj]
    unfold jsonLoadsE
    rw [hc]
    rfl
  · rw [if_neg hj]
    by_cases hb : containsSubstr s "```" = true
    · have hc := h2 _ (by unfold fencedCand; rw [if_neg hj, if_pos hb])
      rw [if_pos hb]
      unfold jsonLoadsE
      rw [hc]
      rfl
    · rw [if_neg hb]
      by_cases hbr : (strFind s "\x7b" != -1 && strRFind s "\x7d" + 1 != 0) = true
      · have hc := h3 _ (by unfold braceCand; rw [if_pos hbr])
        rw [if_pos hbr]
        unfold jsonLoadsE
        rw [hc]
        rfl
      · rw [if_neg hbr]
        rfl

/-- Witness for C2 at the spec's own scenario input. -/
theorem c2_parse_fallback_witness :
    parse_ai_response "I cannot comply." =
      Json.obj
        [("summary", Json.str "Review completed but response parsing failed."),
         ("issues", Json.arr
           [Json.obj
             [("severity", Json.str "Low"),
              ("message", Json.str "AI response could not be parsed"),
              ("suggestion", Json.str "Check the raw AI output for details")]]),
         ("raw_response", Json.str (pyTake "I cannot comply." 500))] :=
  c2_parse_fallback "I cannot comply." (by rfl)
    (fun c hc => by rw [show fencedCand "I cannot comply." = none from rfl] at hc; cases hc)
    (fun c hc => by rw [show braceCand "I cannot comply." = none from rfl] at hc; cases hc)

/-- A model response with a fenced block whose contents are not JSON,
followed by a perfectly parseable `{...}` object. -/
def badFenceInput : String :=
  "```json\nnot json\n``` \x7b\"summary\": \"ok\", \"issues\": []\x7d"

/-- The object embedded after the broken fence of `badFenceInput`. -/
def badFenceObj : Json :=
  Json.obj [("summary", Json.str "ok"), ("issues", Json.arr [])]

/-- C4 counterexample: on `badFenceInput` the fenced candidate fails to
parse, the first-`{`/last-`}` candidate parses to `badFenceObj`, yet
`parse_ai_response` returns the fallback — the later strategy was *not*
attempted. -/
theorem c4_counterexample :
    fencedCand badFenceInput = some "not json" ∧
    jsonLoads "not json" = none ∧
    braceCand badFenceInput = some "\x7b\"summary\": \"ok\", \"issues\": []\x7d" ∧
    jsonLoads "\x7b\"summary\": \"ok\", \"issues\": []\x7d" = some badFenceObj ∧
    parse_ai_response badFenceInput = parseFallback badFenceInput ∧
    parse_ai_response badFenceInput ≠ badFenceObj := by
  refine ⟨by rfl, by rfl, by rfl, by rfl, by rfl, ?_⟩
  intro h
  have h2 : jGet? (parse_ai_response badFenceInput) "summary" =
      jGet? badFenceObj "summary" := by rw [h]
  rw [show jGet? (parse_ai_response badFenceInput) "summary" =
    some (Json.str "Review completed but response parsing failed.") from rfl] at h2
  rw [show jGet? badFenceObj "summary" = some (Json.str "ok") from rfl] at h2
  injection h2 with h3
  injection h3 with h4
  exact absurd h4 (by decide)

/-- C4 as amended: extraction strategies are tried in the stated priority
order with first success winning, but a decoding failure in a fenced-block
candidate — strategy 2 (```` ```json ````) or strategy 3 (plain ```` ``` ````)
— aborts extraction to the fixed fallback without attempting the
first-`{`/last-`}` strategy; that strategy runs only when the text contains
no fence marker at all. -/
theorem c4_amended :
    (∀ s, jsonLoads s = none → containsSubstr s "```json" = true →
      jsonLoads (pyStrip (pySliceII s (strFind s "```json" + 7)
        (strFindFrom s "```" (strFind s "```json" + 7).toNat))) = none →
      parse_ai_response s = parseFallback s) ∧
    (∀ s, jsonLoads s = none →
      containsSubstr s "```json" = false → containsSubstr s "```" = true →
      jsonLoads (pyStrip (pySliceII s (strFind s "```" + 3)
        (strFindFrom s "```" (strFind s "```" + 3).toNat))) = none →
      parse_ai_response s = parseFallback s) ∧
    (∀ s c j, jsonLoads s = none →
      containsSubstr s "```json" = false → containsSubstr s "```" = false →
      braceCand s = some c → jsonLoads c = some j →
      parse_ai_response s = j) := by
  refine ⟨?_, ?_, ?_⟩
  · intro s h1 h2 h3
    have e1 : jsonLoadsE s = Except.error PyExc.jsonDecodeError := by
      unfold jsonLoadsE; rw [h1]
    unfold parse_ai_response
    rw [e1]
    unfold extractJson
    rw [if_pos h2]
    unfold jsonLoadsE
    rw [h3]
    rfl
  · intro s h1 h2 h2p h3
    have e1 : jsonLoadsE s = Except.error PyExc.jsonDecodeError := by
      unfold jsonLoadsE; rw [h1]
    unfold parse_ai_response
    rw [e1]
    unfold extractJson
    rw [if_neg (by rw [h2]; exact Bool.false_ne_true), if_pos h2p]
    unfold jsonLoadsE
    rw [h3]
    rfl
  · intro s c j h1 h2 h3 hc hj
    have e1 : jsonLoadsE s = Except.error PyExc.jsonDecodeError := by
      unfold jsonLoadsE; rw [h1]
    unfold parse_ai_response
    rw [e1]
    unfold extractJson
    rw [if_neg (by rw [h2]; exact Bool.false_ne_true), if_neg (by rw [h3]; exact Bool.false_ne_true)]
    unfold braceCand at hc
    by_cases hbr : (strFind s "\x7b" != -1 && strRFind s "\x7d" + 1 != 0) = true
    · rw [if_pos hbr] at hc ⊢
      injection hc with hc'
      rw [hc']
      unfold jsonLoadsE
      rw [hj]
      rfl
    · rw [if_neg hbr] at hc
      cases hc

/-- A model response with a plain (non-```` ```json ````) fenced block whose
contents are not JSON, followed by a perfectly parseable `{...}` object. -/
def badPlainFenceInput : String :=
  "```\nnot json\n``` \x7b\"summary\": \"ok\", \"issues\": []\x7d"

/-- Witness for C4's amended statement: the ```` ```json ```` abort on
`badFenceInput`, the plain-```` ``` ```` abort on `badPlainFenceInput`, and
the brace strategy succeeding on a fence-free input. -/
theorem c4_amended_witness :
    parse_ai_response badFenceInput = parseFallback badFenceInput ∧
    parse_ai_response badPlainFenceInput = parseFallback badPlainFenceInput ∧
    parse_ai_response "prose \x7b\"a\": 1\x7d end" = Json.obj [("a", Json.num 1)] :=
  ⟨c4_amended.1 badFenceInput (by rfl) (by rfl) (by rfl),
   c4_amended.2.1 badPlainFenceInput (by rfl) (by rfl) (by rfl) (by rfl),
   c4_amended.2.2 "prose \x7b\"a\": 1\x7d end" "\x7b\"a\": 1\x7d"
     (Json.obj [("a", Json.num 1)]) (by rfl) (by rfl) (by rfl) (by rfl) (by rfl)⟩

/-- A response whose ```` ```json ```` fence is never closed and whose
embedded object runs to the very last character of the text. -/
def openFenceInput : String := "```json\x7b\"summary\": \"ok\", \"issues\": []\x7d"

/-- A response whose plain ```` ``` ```` fence is never closed and whose
embedded object runs to the very last character of the text. -/
def openPlainFenceInput : String := "```\x7b\"summary\": \"ok\", \"issues\": []\x7d"

/-- Slicing with end index `-1` keeps everything but the final character:
`s[k:-1]` is `s` without its last character, then dropped to index `k`. -/
theorem pySliceII_drop_last (s : String) (k : Nat) :
    pySliceII s (k : Int) (-1) =
      ⟨(s.data.take (s.data.length - 1)).drop k⟩ := by
  simp only [pySliceII]
  rw [if_neg (by omega : ¬ ((k : Int) < 0)), if_pos (by omega : (-1 : Int) < 0)]
  have hm : (max 0 ((s.data.length : Int) + -1)).toNat = s.data.length - 1 := by
    omega
  rw [hm]
  congr 1
  have hmin : (min (k : Int) (s.data.length : Int)).toNat =
      min k s.data.length := by omega
  rw [hmin]
  rcases le_or_lt k s.data.length with hle | hlt
  · rw [min_eq_left hle]
  · rw [min_eq_right (by omega : s.data.length ≤ k)]
    rw [List.drop_eq_nil_of_le, List.drop_eq_nil_of_le]
    · exact le_trans (List.length_take_le _ _) (by omega)
    · exact le_trans (List.length_take_le _ _) (by omega)

/-- C10: when a ```` ```json ```` marker — or, lacking that, a plain
```` ``` ```` marker — occurs but no further ```` ``` ```` follows it,
`find` returns `-1` and the slice `response_text[start:-1]` excludes the
final character of the input; if the truncated candidate then fails to
parse, the function returns the fixed fallback. -/
theorem c10_unterminated_fence :
    (∀ (s : String) (p : Nat), jsonLoads s = none →
      strFind s "```json" = (p : Int) →
      strFindFrom s "```" (p + 7) = -1 →
      pySliceII s ((p : Int) + 7) (-1) =
        ⟨(s.data.take (s.data.length - 1)).drop (p + 7)⟩ ∧
      (jsonLoads (pyStrip (pySliceII s ((p : Int) + 7) (-1))) = none →
        parse_ai_response s = parseFallback s)) ∧
    (∀ (s : String) (p : Nat), jsonLoads s = none →
      containsSubstr s "```json" = false →
      strFind s "```" = (p : Int) →
      strFindFrom s "```" (p + 3) = -1 →
      pySliceII s ((p : Int) + 3) (-1) =
        ⟨(s.data.take (s.data.length - 1)).drop (p + 3)⟩ ∧
      (jsonLoads (pyStrip (pySliceII s ((p : Int) + 3) (-1))) = none →
        parse_ai_response s = parseFallback s)) := by
  constructor
  · intro s p h1 h2 h3
    have hcast : (p : Int) + 7 = ((p + 7 : Nat) : Int) := by push_cast; ring
    constructor
    · rw [hcast, pySliceII_drop_last]
    · intro h4
      have e1 : jsonLoadsE s = Except.error PyExc.jsonDecodeError := by
        unfold jsonLoadsE; rw [h1]
      have hcj : containsSubstr s "```json" = true := by
        unfold containsSubstr
        rw [h2]
        rfl
      have hstart : (strFind s "```json" + 7).toNat = p + 7 := by rw [h2]; omega
      unfold parse_ai_response
      rw [e1]
      unfold extractJson
      rw [if_pos hcj, hstart, h3, h2]
      unfold jsonLoadsE
      rw [h4]
      rfl
  · intro s p h1 hnj h2 h3
    have hcast : (p : Int) + 3 = ((p + 3 : Nat) : Int) := by push_cast; ring
    constructor
    · rw [hcast, pySliceII_drop_last]
    · intro h4
      have e1 : jsonLoadsE s = Except.error PyExc.jsonDecodeError := by
        unfold jsonLoadsE; rw [h1]
      have hcp : containsSubstr s "```" = true := by
        unfold containsSubstr
        rw [h2]
        rfl
      have hstart : (strFind s "```" + 3).toNat = p + 3 := by rw [h2]; omega
      unfold parse_ai_response
      rw [e1]
      unfold extractJson
      rw [if_neg (by rw [hnj]; exact Bool.false_ne_true), if_pos hcp, hstart, h3, h2]
      unfold jsonLoadsE
      rw [h4]
      rfl

/-- Witness for C10: on `openFenceInput` and on `openPlainFenceInput` the
candidate loses the closing brace, the fenced parse fails, and the fallback
is returned even though the full embedded object (with its last character)
parses fine. -/
theorem c10_unterminated_fence_witness :
    parse_ai_response openFenceInput = parseFallback openFenceInput ∧
    parse_ai_response openPlainFenceInput = parseFallback openPlainFenceInput ∧
    jsonLoads "\x7b\"summary\": \"ok\", \"issues\": []\x7d" =
      some (Json.obj [("summary", Json.str "ok"), ("issues", Json.arr [])]) :=
  ⟨(c10_unterminated_fence.1 openFenceInput 0 (by rfl) (by rfl) (by rfl)).2 (by rfl),
   (c10_unterminated_fence.2 openPlainFenceInput 0 (by rfl) (by rfl) (by rfl)
     (by rfl)).2 (by rfl),
   by rfl⟩

/-!
## `app/ai_reviewer.py` — `create_review_prompt` and `review_code`

`review_code`'s interaction with the OpenAI client (`get_openai_client` plus
`client.chat.completions.create(...).choices[0].message.content`) is
abstracted as a collaborator `api : String → Except PyExc String` mapping
the built prompt to either the raw response text or a raised exception; a
missing `OPENAI_API_KEY` surfaces as `PyExc.valueError` exactly as
`get_openai_client` raises `ValueError`.  Everything else is translated
directly.
-/

/-- Python `str(e)` for the modelled exceptions. -/
def pyExcStr : PyExc → String
  | PyExc.valueError m => m
  | PyExc.keyError k => "'" ++ k ++ "'"
  | PyExc.typeError m => m
  | PyExc.httpError _ d => d
  | PyExc.jsonDecodeError => "Expecting value"
  | PyExc.genericError m => m

def pyExcIsValueError : PyExc → Bool
  | PyExc.valueError _ => true
  | _ => false

/-- The fixed instruction template of `create_review_prompt`
(lines 56-97 of `ai_reviewer.py`), up to the embedded diff. -/
def promptHead : String :=
  "You are an expert code reviewer. Analyze the following code diff and provide feedback.\n\n## Instructions:\n\n1. Look for these types of issues:\n   - **Bugs**: Logic errors, null pointer risks, off-by-one errors\n   - **Security Issues**: SQL injection, XSS, hardcoded secrets, insecure practices\n   - **Performance Concerns**: N+1 queries, inefficient loops, memory leaks\n   - **Code Quality**: Poor naming, missing error handling, code duplication\n\n2. Classify each issue by severity:\n   - **Critical**: Security vulnerabilities, data loss risks, system crashes\n   - **High**: Bugs that will cause incorrect behavior\n   - **Medium**: Performance issues, maintainability problems\n   - **Low**: Style issues, minor improvements\n\n3. Respond with ONLY valid JSON in this exact format:\n\x7b\n  \"summary\": \"A brief overall assessment of the code changes\",\n  \"issues\": [\n    \x7b\n      \"severity\": \"High\",\n      \"message\": \"Description of the issue\",\n      \"suggestion\": \"How to fix it\"\n    \x7d\n  ]\n\x7d\n\nIf the code looks good with no issues, return:\n\x7b\n  \"summary\": \"Code looks good! No significant issues found.\",\n  \"issues\": []\n\x7d\n\n## Code Diff to Review:\n\n```\n"

/-- The fixed template after the embedded diff. -/
def promptTail : String :=
  "\n```\n\nRemember: Respond with ONLY the JSON object, no additional text or markdown.\n"

/-- `create_review_prompt` (lines 40-98 of `ai_reviewer.py`): the f-string
renders as the fixed text around the embedded `code_diff`. -/
def create_review_prompt (code_diff : String) : String :=
  promptHead ++ code_diff ++ promptTail

def MAX_DIFF_LENGTH : Nat := 10000

/-- The reassignment `code_diff = code_diff[:MAX_DIFF_LENGTH] + "..."`
guarded by `len(code_diff) > MAX_DIFF_LENGTH` (lines 194-197). -/
def truncatedDiff (code_diff : String) : String :=
  if code_diff.data.length > MAX_DIFF_LENGTH then
    pyTake code_diff MAX_DIFF_LENGTH ++ "\n\n[... diff truncated for length ...]"
  else code_diff

/-- The dictionary returned from `review_code`'s `except ValueError` branch
(lines 232-244). -/
def configErrorJson (msg : String) : Json :=
  Json.obj
    [("summary", Json.str "Review failed due to configuration error."),
     ("issues", Json.arr
       [Json.obj
         [("severity", Json.str "Critical"),
          ("message", Json.str msg),
          ("suggestion", Json.str "Check your .env file and ensure OPENAI_API_KEY is set")]])]

/-- The dictionary returned from `review_code`'s `except Exception` branch
(lines 246-258). -/
def genericErrorJson (msg : String) : Json :=
  Json.obj
    [("summary", Json.str "Review failed due to an error."),
     ("issues", Json.arr
       [Json.obj
         [("severity", Json.str "Critical"),
          ("message", Json.str ("AI review error: " ++ msg)),
          ("suggestion", Json.str "Check your API key and network connection")]])]

/-- `review_code` (lines 172-258 of `ai_reviewer.py`). -/
def review_code (api : String → Except PyExc String) (code_diff : String) : Json :=
  match api (create_review_prompt (truncatedDiff code_diff)) with
  | Except.ok response_text => parse_ai_response response_text
  | Except.error (PyExc.valueError e) => configErrorJson (pyExcStr (PyExc.valueError e))
  | Except.error e => genericErrorJson (pyExcStr e)

/-- The return contract asserted by the spec's ReviewResult invariant:
`issues` present (possibly empty) and `summary` present and non-empty. -/
def conformsReviewResult (j : Json) : Bool :=
  (jGet? j "issues").isSome &&
  (match jGet? j "summary" with
   | some (Json.str t) => !t.isEmpty
   | _ => false)

/-- C3 counterexample: a successfully parsed structure is returned as-is,
so `parse_ai_response` (and hence `review_code`'s success path) can return a
value with neither `issues` nor a `summary`. -/
theorem c3_counterexample :
    parse_ai_response "\x7b\"a\": 1\x7d" = Json.obj [("a", Json.num 1)] ∧
    conformsReviewResult (parse_ai_response "\x7b\"a\": 1\x7d") = false ∧
    review_code (fun _ => Except.ok "\x7b\"a\": 1\x7d") "print(1)" = Json.obj [("a", Json.num 1)] :=
  ⟨by rfl, by rfl, by rfl⟩

/-- C3 as amended: every *failure-path* value of the pipeline (the parse
fallback, the configuration-error dictionary and the generic-error
dictionary) conforms to the ReviewResult shape, and the success path
returns the parsed structure as-is (which may not conform). -/
theorem c3_amended :
    (∀ s, conformsReviewResult (parseFallback s) = true) ∧
    (∀ msg d, conformsReviewResult
      (review_code (fun _ => Except.error (PyExc.valueError msg)) d) = true) ∧
    (∀ e d, pyExcIsValueError e = false →
      conformsReviewResult (review_code (fun _ => Except.error e) d) = true) ∧
    (∀ s d, review_code (fun _ => Except.ok s) d = parse_ai_response s) := by
  refine ⟨fun s => rfl, fun msg d => rfl, fun e d he => ?_, fun s d => rfl⟩
  cases e with
  | valueError m => simp [pyExcIsValueError] at he
  | keyError k => rfl
  | typeError m => rfl
  | httpError c m => rfl
  | jsonDecodeError => rfl
  | genericError m => rfl

/-- Witness for C3's amended statement. -/
theorem c3_amended_witness :
    conformsReviewResult
      (review_code (fun _ => Except.error (PyExc.genericError "connection reset")) "x") = true :=
  c3_amended.2.2.1 (PyExc.genericError "connection reset") "x" (by rfl)

/-- C7: a diff longer than 10,000 characters is embedded into the review
prompt as exactly its first 10,000 characters followed by the literal
truncation marker — never more. -/
theorem c7_truncation (d : String) (h : 10000 < d.data.length) :
    truncatedDiff d = pyTake d 10000 ++ "\n\n[... diff truncated for length ...]" ∧
    (pyTake d 10000).data.length = 10000 ∧
    pyTake d 10000 = ⟨d.data.take 10000⟩ ∧
    create_review_prompt (truncatedDiff d) =
      promptHead ++ (pyTake d 10000 ++ "\n\n[... diff truncated for length ...]") ++ promptTail := by
  have h1 : truncatedDiff d = pyTake d 10000 ++ "\n\n[... diff truncated for length ...]" := by
    unfold truncatedDiff MAX_DIFF_LENGTH
    rw [if_pos h]
  refine ⟨h1, ?_, rfl, ?_⟩
  · show (d.data.take 10000).length = 10000
    rw [List.length_take]
    omega
  · unfold create_review_prompt
    rw [h1]

/-- Witness for C7 on a 15,000-character diff. -/
theorem c7_truncation_witness :
    10000 < (String.mk (List.replicate 15000 'a')).data.length ∧
    truncatedDiff ⟨List.replicate 15000 'a'⟩ =
      pyTake ⟨List.replicate 15000 'a'⟩ 10000 ++ "\n\n[... diff truncated for length ...]" ∧
    (pyTake ⟨List.replicate 15000 'a'⟩ 10000).data.length = 10000 := by
  have h : 10000 < (String.mk (List.replicate 15000 'a')).data.length := by
    show 10000 < (List.replicate 15000 'a').length
    rw [List.length_replicate]
    norm_num
  exact ⟨h, (c7_truncation _ h).1, (c7_truncation _ h).2.1⟩

/-!
## `app/webhook.py` — `verify_github_signature`

`hmac.new(secret.encode(), payload, hashlib.sha256).hexdigest()` is modelled
by an executable SHA-256/HMAC implementation over byte lists, with machine
words as `Nat` reduced mod `2^32`.  `hmac.compare_digest` is a constant-time
string comparison; its *value* is plain equality, which is what the
embedding records (timing behaviour is not a statement about values).
-/

def w32 (n : Nat) : Nat := n % 4294967296

def rotr (n x : Nat) : Nat := w32 ((x >>> n) ||| (x <<< (32 - n)))

def bsig0 (x : Nat) : Nat := rotr 2 x ^^^ rotr 13 x ^^^ rotr 22 x
def bsig1 (x : Nat) : Nat := rotr 6 x ^^^ rotr 11 x ^^^ rotr 25 x
def ssig0 (x : Nat) : Nat := rotr 7 x ^^^ rotr 18 x ^^^ (x >>> 3)
def ssig1 (x : Nat) : Nat := rotr 17 x ^^^ rotr 19 x ^^^ (x >>> 10)
def chF (x y z : Nat) : Nat := (x &&& y) ^^^ ((x ^^^ 4294967295) &&& z)
def majF (x y z : Nat) : Nat := (x &&& y) ^^^ (x &&& z) ^^^ (y &&& z)

def sha256K : List Nat :=
  [1116352408, 1899447441, 3049323471, 3921009573, 961987163,
   1508970993, 2453635748, 2870763221, 3624381080, 310598401,
   607225278, 1426881987, 1925078388, 2162078206, 2614888103,
   3248222580, 3835390401, 4022224774, 264347078, 604807628,
   770255983, 1249150122, 1555081692, 1996064986, 2554220882,
   2821834349, 2952996808, 3210313671, 3336571891, 3584528711,
   113926993, 338241895, 666307205, 773529912, 1294757372,
   1396182291, 1695183700, 1986661051, 2177026350, 2456956037,
   2730485921, 2820302411, 3259730800, 3345764771, 3516065817,
   3600352804, 4094571909, 275423344, 430227734, 506948616,
   659060556, 883997877, 958139571, 1322822218, 1537002063,
   1747873779, 1955562222, 2024104815, 2227730452, 2361852424,
   2428436474, 2756734187, 3204031479, 3329325298]

def sha256H0 : List Nat :=
  [1779033703, 3144134277, 1013904242, 2773480762, 1359893119,
   2600822924, 528734635, 1541459225]

/-- Big-endian byte rendering of `n` in exactly `k` bytes. -/
def toBytesBE : Nat → Nat → List Nat
  | 0, _ => []
  | k + 1, n => toBytesBE k (n / 256) ++ [n % 256]

/-- 64-byte chunk to 16 big-endian 32-bit words. -/
def toWords : List Nat → List Nat
  | a :: b :: c :: d :: rest => (((a * 256 + b) * 256 + c) * 256 + d) :: toWords rest
  | _ => []

/-- Message-schedule extension by `n` further words. -/
def schedExt : Nat → List Nat → List Nat
  | 0, w => w
  | n + 1, w =>
    schedExt n (w ++ [w32 (ssig1 (w.getD (w.length - 2) 0) + w.getD (w.length - 7) 0 +
      ssig0 (w.getD (w.length - 15) 0) + w.getD (w.length - 16) 0)])

def compressStep (st : List Nat) (kw : Nat × Nat) : List Nat :=
  match st with
  | [a, b, c, d, e, f, g, h] =>
    let t1 := w32 (h + bsig1 e + chF e f g + kw.1 + kw.2)
    let t2 := w32 (bsig0 a + majF a b c)
    [w32 (t1 + t2), a, b, c, w32 (d + t1), e, f, g]
  | other => other

def compressBlock (h : List Nat) (chunk : List Nat) : List Nat :=
  let ws := schedExt 48 (toWords chunk)
  let st := (sha256K.zip ws).foldl compressStep h
  (h.zip st).map (fun p => w32 (p.1 + p.2))

def chunks64 : List Nat → List (List Nat)
  | [] => []
  | l@(_ :: _) => l.take 64 :: chunks64 (l.drop 64)
termination_by l => l.length
decreasing_by
  rename_i h
  simp [List.length_drop, h]
  omega

/-- SHA-256 of a byte list, as a 32-byte digest. -/
def sha256 (msg : List Nat) : List Nat :=
  let L := msg.length
  let padded := msg ++ [0x80] ++ List.replicate ((119 - L % 64) % 64) 0 ++
    toBytesBE 8 ((8 * L) % 18446744073709551616)
  ((chunks64 padded).foldl compressBlock sha256H0).map (toBytesBE 4) |>.flatten

def hexChar (n : Nat) : Char :=
  if n < 10 then Char.ofNat ('0'.toNat + n) else Char.ofNat ('a'.toNat + n - 10)

/-- Lowercase hex rendering of a byte list (`.hexdigest()`). -/
def bytesToHex (l : List Nat) : String :=
  ⟨l.foldr (fun b acc => hexChar (b / 16) :: hexChar (b % 16) :: acc) []⟩

/-- HMAC-SHA256 (`hmac.new(key, msg, hashlib.sha256)`). -/
def hmacSha256 (key msg : List Nat) : List Nat :=
  let k0 := if key.length > 64 then sha256 key else key
  let k := k0 ++ List.replicate (64 - k0.length) 0
  sha256 ((k.map (fun b => b ^^^ 0x5c)) ++ sha256 ((k.map (fun b => b ^^^ 0x36)) ++ msg))

/-- UTF-8 encoding of one character (Python `str.encode()`). -/
def utf8EncodeChar (c : Char) : List Nat :=
  let n := c.toNat
  if n < 0x80 then [n]
  else if n < 0x800 then [0xC0 ||| (n >>> 6), 0x80 ||| (n &&& 0x3F)]
  else if n < 0x10000 then
    [0xE0 ||| (n >>> 12), 0x80 ||| ((n >>> 6) &&& 0x3F), 0x80 ||| (n &&& 0x3F)]
  else
    [0xF0 ||| (n >>> 18), 0x80 ||| ((n >>> 12) &&& 0x3F),
     0x80 ||| ((n >>> 6) &&& 0x3F), 0x80 ||| (n &&& 0x3F)]

/-- Python `s.encode()` — UTF-8 bytes of a string. -/
def strEncode (s : String) : List Nat := (s.data.map utf8EncodeChar).flatten

/-- `verify_github_signature` (lines 35-63 of `webhook.py`). -/
def verify_github_signature (payload : List Nat) (signature secret : String) : Bool :=
  if secret = "" then true
  else ("sha256=" ++ bytesToHex (hmacSha256 (strEncode secret) payload)) == signature

/-- C6: with an empty shared secret, verification is skipped and every
payload/signature combination is accepted. -/
theorem c6_empty_secret_accepts (payload : List Nat) (signature : String) :
    verify_github_signature payload signature "" = true := rfl

/-- Exact-match characterisation of verification with a non-empty secret
(one half of C5): acceptance holds precisely for the
`"sha256=" + hex(HMAC-SHA256(secret, body))` header. -/
theorem verify_nonempty_iff (payload : List Nat) (signature secret : String)
    (h : secret ≠ "") :
    verify_github_signature payload signature secret = true ↔
      signature = "sha256=" ++ bytesToHex (hmacSha256 (strEncode secret) payload) := by
  unfold verify_github_signature
  rw [if_neg h]
  rw [beq_iff_eq]
  exact eq_comm

/-- Witness for `verify_nonempty_iff` at a concrete body and secret. -/
theorem verify_nonempty_iff_witness :
    ("s" ≠ "") ∧
    (verify_github_signature [104, 105] "x" "s" = true ↔
      "x" = "sha256=" ++ bytesToHex (hmacSha256 (strEncode "s") [104, 105])) :=
  ⟨by decide, verify_nonempty_iff [104, 105] "x" "s" (by decide)⟩

/-- An empty signature header is rejected whenever a secret is configured
(the empty-header half of C5). -/
theorem verify_empty_header_false (payload : List Nat) (secret : String)
    (h : secret ≠ "") :
    verify_github_signature payload "" secret = false := by
  unfold verify_github_signature
  rw [if_neg h]
  rw [beq_eq_false_iff_ne]
  intro hEq
  have hd := congrArg String.data hEq
  rw [String.data_append] at hd
  simp at hd

/-- Witness for `verify_empty_header_false`. -/
theorem verify_empty_header_false_witness :
    verify_github_signature [1, 2, 3] "" "topsecret" = false :=
  verify_empty_header_false [1, 2, 3] "topsecret" (by decide)

/-!
## `app/webhook.py` — `handle_webhook`, and `app/utils.py` — `is_valid_pr_event`

The orchestrator is embedded as a function of the inbound request (payload
text, signature header, configured secret) and its two collaborators: the
diff fetcher `get_pull_request_diff` and the model call inside
`review_code`.  The result records the returned/raised value together with
how many times each collaborator path was invoked.  Python's `in`,
`[...]`-indexing and `.get` on parsed JSON data are embedded with their
exception behaviour (`TypeError` on non-iterables, `KeyError` on missing
dictionary keys).
-/

/-- Python `j == s` for a string literal `s`: only `str` values compare
equal to a string. -/
def pyEqStr (j : Json) (s : String) : Bool :=
  match j with
  | Json.str t => t == s
  | _ => false

/-- Python `key in j`: key test on dicts, membership on lists, substring
test on strings, `TypeError` otherwise. -/
def jin (key : String) (j : Json) : Except PyExc Bool :=
  match j with
  | Json.obj fs => Except.ok (fs.any (fun p => p.1 == key))
  | Json.arr xs => Except.ok (xs.any (fun x => pyEqStr x key))
  | Json.str s => Except.ok (containsSubstr s key)
  | _ => Except.error (PyExc.typeError "argument is not iterable")

/-- Python `j[key]`: `KeyError` on a missing key, `TypeError` on a value
that is not string-subscriptable. -/
def jget (j : Json) (key : String) : Except PyExc Json :=
  match j with
  | Json.obj fs =>
    match fs.find? (fun p => p.1 == key) with
    | some p => Except.ok p.2
    | none => Except.error (PyExc.keyError key)
  | _ => Except.error (PyExc.typeError "value is not subscriptable")

/-- Python `j.get(key, default)`: only dictionaries have `.get`
(`AttributeError` otherwise). -/
def jgetD (j : Json) (key : String) (d : Json) : Except PyExc Json :=
  match j with
  | Json.obj fs =>
    match fs.find? (fun p => p.1 == key) with
    | some p => Except.ok p.2
    | none => Except.ok d
  | _ => Except.error (PyExc.genericError "AttributeError: get")

/-- Python `f"{j}"` for a parsed JSON value.  Scalars are rendered exactly
as Python renders them; the renderings of composite values are
approximations (no verified statement depends on them). -/
def pyStrOf : Json → String
  | Json.null => "None"
  | Json.bool true => "True"
  | Json.bool false => "False"
  | Json.num n => toString n
  | Json.big t => t
  | Json.str s => s
  | Json.arr _ => "[...]"
  | Json.obj _ => "\x7b...\x7d"

/-- `is_valid_pr_event` (lines 97-119 of `utils.py`). -/
def is_valid_pr_event (payload : Json) : Except PyExc Bool :=
  match jin "pull_request" payload with
  | Except.error e => Except.error e
  | Except.ok b =>
    if !b then Except.ok false
    else
      match jin "repository" payload with
      | Except.error e => Except.error e
      | Except.ok b2 =>
        if !b2 then Except.ok false
        else
          match jgetD payload "action" (Json.str "") with
          | Except.error e => Except.error e
          | Except.ok action =>
            Except.ok (pyEqStr action "opened" || pyEqStr action "synchronize" ||
              pyEqStr action "reopened")

/-- Outcome of one `handle_webhook` transaction: the returned value or the
exception escaping the handler, plus how many times the diff-fetch
collaborator and the `review_code` pipeline were invoked. -/
structure WebhookResult where
  res : Except PyExc Json
  fetchDiffCalls : Nat
  reviewCalls : Nat
deriving Repr

/-- `handle_webhook` (lines 66-149 of `webhook.py`).  `fetchDiff` models
`get_pull_request_diff` (empty string on failure) and `api` the model call
inside `review_code`. -/
def handle_webhook (secret signature payload : String)
    (fetchDiff : Json → Json → String) (api : String → Except PyExc String) :
    WebhookResult :=
  if verify_github_signature (strEncode payload) signature secret then
    match jsonLoads payload with
    | none => ⟨Except.error (PyExc.httpError 400 "Invalid JSON payload"), 0, 0⟩
    | some data =>
      match jin "pull_request" data with
      | Except.error e => ⟨Except.error e, 0, 0⟩
      | Except.ok pr =>
        if pr then
          match jgetD data "action" (Json.str "") with
          | Except.error e => ⟨Except.error e, 0, 0⟩
          | Except.ok action =>
            if pyEqStr action "opened" || pyEqStr action "synchronize" then
              match (do
                let repo ← jget data "repository"
                let repo_full_name ← jget repo "full_name"
                let prObj ← jget data "pull_request"
                let pr_number ← jget prObj "number"
                let prObj2 ← jget data "pull_request"
                let _pr_title ← jget prObj2 "title"
                pure (repo_full_name, pr_number) : Except PyExc (Json × Json)) with
              | Except.error e => ⟨Except.error e, 0, 0⟩
              | Except.ok (repo_full_name, pr_number) =>
                let diff := fetchDiff repo_full_name pr_number
                if diff = "" then
                  ⟨Except.ok (Json.obj [("status", Json.str "error"),
                    ("message", Json.str "Could not fetch PR diff")]), 1, 0⟩
                else
                  ⟨Except.ok (Json.obj [("status", Json.str "success"),
                    ("repository", repo_full_name),
                    ("pull_request", pr_number),
                    ("review", review_code api diff)]), 1, 1⟩
            else
              ⟨Except.ok (Json.obj [("status", Json.str "ignored"),
                ("reason", Json.str ("Action '" ++ pyStrOf action ++ "' not processed"))]), 0, 0⟩
        else
          ⟨Except.ok (Json.obj [("status", Json.str "ignored"),
            ("reason", Json.str "Not a pull request event")]), 0, 0⟩
  else ⟨Except.error (PyExc.httpError 401 "Invalid signature"), 0, 0⟩

/-- A signed, well-formed pull-request event with `action: "opened"` whose
`repository` key is missing — the classifier rejects it, yet the
orchestrator reaches `data["repository"]` and raises. -/
def noRepoPayload : String :=
  "\x7b\"pull_request\": \x7b\"number\": 1, \"title\": \"t\"\x7d, \"action\": \"opened\"\x7d"

/-- The parse of `noRepoPayload`. -/
def noRepoData : Json :=
  Json.obj [("pull_request", Json.obj [("number", Json.num 1), ("title", Json.str "t")]),
            ("action", Json.str "opened")]

/-- C1 (code bug): on `noRepoPayload` — which passes verification (empty
secret) and parses as JSON, and on which the Event Classifier returns
false — `handle_webhook` does not return an ignored-status value: it raises
`KeyError('repository')` past the orchestrator, without calling either
collaborator.  The classifier `is_valid_pr_event` is never consulted by the
orchestrator in the source. -/
theorem c1_missing_repository_raises :
    jsonLoads noRepoPayload = some noRepoData ∧
    is_valid_pr_event noRepoData = Except.ok false ∧
    ∀ (fetchDiff : Json → Json → String) (api : String → Except PyExc String),
      handle_webhook "" "sig" noRepoPayload fetchDiff api =
        ⟨Except.error (PyExc.keyError "repository"), 0, 0⟩ :=
  ⟨by rfl, by rfl, fun fetchDiff api => by rfl⟩

/-- C9: an authenticated pull-request event whose action is neither
`"opened"` nor `"synchronize"` is answered with the ignored-status value
naming the action, with neither the diff-fetch nor the review pipeline
invoked; and (second conjunct) the classifier accepts `"reopened"`
although the orchestrator ignores it — the asymmetry the spec preserves. -/
theorem c9_other_actions_ignored :
    (∀ (secret signature payload : String) (fetchDiff : Json → Json → String)
       (api : String → Except PyExc String) (data : Json) (a : String),
      verify_github_signature (strEncode payload) signature secret = true →
      jsonLoads payload = some data →
      jin "pull_request" data = Except.ok true →
      jgetD data "action" (Json.str "") = Except.ok (Json.str a) →
      a ≠ "opened" → a ≠ "synchronize" →
      handle_webhook secret signature payload fetchDiff api =
        ⟨Except.ok (Json.obj [("status", Json.str "ignored"),
          ("reason", Json.str ("Action '" ++ a ++ "' not processed"))]), 0, 0⟩) ∧
    (∀ data : Json,
      jin "pull_request" data = Except.ok true →
      jin "repository" data = Except.ok true →
      jgetD data "action" (Json.str "") = Except.ok (Json.str "reopened") →
      is_valid_pr_event data = Except.ok true) := by
  constructor
  · intro secret signature payload fetchDiff api data a hv hp hin hact hne1 hne2
    unfold handle_webhook
    rw [hv, hp]
    simp only []
    rw [hin]
    simp only [if_true]
    rw [hact]
    have e1 : pyEqStr (Json.str a) "opened" = false := by
      unfold pyEqStr
      exact beq_eq_false_iff_ne.mpr hne1
    have e2 : pyEqStr (Json.str a) "synchronize" = false := by
      unfold pyEqStr
      exact beq_eq_false_iff_ne.mpr hne2
    simp only [e1, e2, Bool.or_self, Bool.false_eq_true, if_false]
    rfl
  · intro data h1 h2 h3
    unfold is_valid_pr_event
    rw [h1, h2, h3]
    rfl

/-- A `closed`-action event for the C9 witness. -/
def closedPayload : String :=
  "\x7b\"pull_request\": \x7b\"number\": 2, \"title\": \"t\"\x7d, \"repository\": \x7b\"full_name\": \"o/r\"\x7d, \"action\": \"closed\"\x7d"

/-- Witness for C9 at the spec's `closed` scenario (empty secret, so the
event is authenticated). -/
theorem c9_other_actions_ignored_witness :
    handle_webhook "" "" closedPayload (fun _ _ => "diff") (fun _ => Except.ok "") =
      ⟨Except.ok (Json.obj [("status", Json.str "ignored"),
        ("reason", Json.str ("Action '" ++ "closed" ++ "' not processed"))]), 0, 0⟩ :=
  c9_other_actions_ignored.1 "" "" closedPayload (fun _ _ => "diff") (fun _ => Except.ok "")
    (Json.obj [("pull_request", Json.obj [("number", Json.num 2), ("title", Json.str "t")]),
               ("repository", Json.obj [("full_name", Json.str "o/r")]),
               ("action", Json.str "closed")])
    "closed" (by rfl) (by rfl) (by rfl) (by rfl) (by decide) (by decide)

/-!
## `app/utils.py` — `sanitize_for_logging`

The three `re.sub(pattern, replacement, text, flags=re.IGNORECASE)` calls
are embedded as explicit left-to-right scanners, one per pattern, applied
in sequence against the cumulative result exactly as the source's loop
does.  `re.IGNORECASE` is modelled as ASCII case-insensitivity (`ciEq`),
`[a-zA-Z0-9]` as `isAln`, and `\S` as `isNonSp` (the complement of the
whitespace class).  Each scanner tries a match at every position in turn;
on a match it emits the replacement and resumes after the matched text, as
`re.sub` does.
-/

/-- `[a-zA-Z0-9]`. -/
def isAln (c : Char) : Bool :=
  decide (97 ≤ c.toNat ∧ c.toNat ≤ 122) || decide (65 ≤ c.toNat ∧ c.toNat ≤ 90) ||
    decide (48 ≤ c.toNat ∧ c.toNat ≤ 57)

/-- `\S` — not `[ \t\n\r\x0b\x0c]`. -/
def isNonSp (c : Char) : Bool := !pyWs c

/-- ASCII case-insensitive character equality (model of `re.IGNORECASE`
literal matching). -/
def ciEq (a c : Char) : Bool :=
  decide (a.toNat = c.toNat) ||
    decide (65 ≤ a.toNat ∧ a.toNat ≤ 90 ∧ a.toNat + 32 = c.toNat) ||
    decide (65 ≤ c.toNat ∧ c.toNat ≤ 90 ∧ c.toNat + 32 = a.toNat)

/-- Case-insensitive literal-prefix match. -/
def ciStarts : List Char → List Char → Bool
  | [], _ => true
  | _ :: _, [] => false
  | a :: p, c :: t => ciEq a c && ciStarts p t

/-- Exactly `n` leading alphanumeric characters. -/
def alnumRun : Nat → List Char → Bool
  | 0, _ => true
  | _ + 1, [] => false
  | n + 1, c :: t => isAln c && alnumRun n t

/-- A match of `ghp_[a-zA-Z0-9]{36}` at the head. -/
def match1 (l : List Char) : Bool :=
  ciStarts ['g', 'h', 'p', '_'] l && alnumRun 36 (l.drop 4)

def repl1 : List Char :=
  ['g', 'h', 'p', '_', '*', '*', '*', 'R', 'E', 'D', 'A', 'C', 'T', 'E', 'D', '*', '*', '*']

/-- `re.sub` for the GitHub-token rule. -/
def sub1 : List Char → List Char
  | [] => []
  | c :: rest =>
    if match1 (c :: rest) then repl1 ++ sub1 (rest.drop 39)
    else c :: sub1 rest
termination_by l => l.length
decreasing_by
  · simp [List.length_drop]; omega
  · simp

/-- A match of `sk-[a-zA-Z0-9]{48}` at the head. -/
def match2 (l : List Char) : Bool :=
  ciStarts ['s', 'k', '-'] l && alnumRun 48 (l.drop 3)

def repl2 : List Char :=
  ['s', 'k', '-', '*', '*', '*', 'R', 'E', 'D', 'A', 'C', 'T', 'E', 'D', '*', '*', '*']

/-- `re.sub` for the OpenAI-key rule. -/
def sub2 : List Char → List Char
  | [] => []
  | c :: rest =>
    if match2 (c :: rest) then repl2 ++ sub2 (rest.drop 50)
    else c :: sub2 rest
termination_by l => l.length
decreasing_by
  · simp [List.length_drop]; omega
  · simp

def tokenW : List Char := ['t', 'o', 'k', 'e', 'n']
def keyW : List Char := ['k', 'e', 'y']
def secretW : List Char := ['s', 'e', 'c', 'r', 'e', 't']
def passwordW : List Char := ['p', 'a', 's', 's', 'w', 'o', 'r', 'd']

/-- One alternative of `(token|key|secret|password)=\S+`: on success,
returns the matched word characters (original case, for the `\1`
backreference) and the text after the `=`, whose head is non-space. -/
def tryWord (w l : List Char) : Option (List Char × List Char) :=
  if ciStarts w l then
    match l.drop w.length with
    | '=' :: c :: rest => if isNonSp c then some (l.take w.length, c :: rest) else none
    | _ => none
  else none

/-- A match of `(token|key|secret|password)=\\S+` at the head, alternatives
tried in the pattern's order (their first letters are pairwise distinct, so
at most one can apply). -/
def match3 (l : List Char) : Option (List Char × List Char) :=
  match tryWord tokenW l with
  | some r => some r
  | none =>
    match tryWord keyW l with
    | some r => some r
    | none =>
      match tryWord secretW l with
      | some r => some r
      | none => tryWord passwordW l

theorem tryWord_some_len {w l wchars afterEq : List Char}
    (h : tryWord w l = some (wchars, afterEq)) :
    w.length + 1 + afterEq.length = l.length := by
  unfold tryWord at h
  split at h
  · split at h
    · rename_i heq
      split at h
      · injection h with h'
        injection h' with h1 h2
        have hlen := congrArg List.length heq
        rw [List.length_drop] at hlen
        simp at hlen
        subst h2
        simp
        omega
      · cases h
    · cases h
  · cases h

theorem match3_some_len {l wchars afterEq : List Char}
    (h : match3 l = some (wchars, afterEq)) :
    afterEq.length < l.length := by
  unfold match3 at h
  split at h
  · rename_i r heq
    injection h with h'
    subst h'
    have := tryWord_some_len heq
    omega
  · split at h
    · rename_i r heq
      injection h with h'
      subst h'
      have := tryWord_some_len heq
      omega
    · split at h
      · rename_i r heq
        injection h with h'
        subst h'
        have := tryWord_some_len heq
        omega
      · have := tryWord_some_len h
        omega

def eqRedacted : List Char :=
  ['=', '*', '*', '*', 'R', 'E', 'D', 'A', 'C', 'T', 'E', 'D', '*', '*', '*']

/-- `re.sub` for the generic `word=value` rule: the replacement
`\1=***REDACTED***` keeps the matched word, and the greedy `\S+` consumes
the maximal non-space run after the `=`. -/
def sub3 : List Char → List Char
  | [] => []
  | c :: rest =>
    match h : match3 (c :: rest) with
    | some (wchars, afterEq) =>
      wchars ++ eqRedacted ++ sub3 (afterEq.dropWhile isNonSp)
    | none => c :: sub3 rest
termination_by l => l.length
decreasing_by
  · have h1 := match3_some_len h
    have h2 := (List.dropWhile_sublist (l := afterEq) isNonSp).length_le
    simp only [List.length_cons] at h1 ⊢
    omega
  · simp

/-- `sanitize_for_logging` (lines 122-150 of `utils.py`): the three rules
applied in sequence against the cumulative result. -/
def sanitize_for_logging (text : String) : String :=
  ⟨sub3 (sub2 (sub1 text.data))⟩

theorem ciEq_true_iff {a c : Char} :
    ciEq a c = true ↔
      (a.toNat = c.toNat ∨ (65 ≤ a.toNat ∧ a.toNat ≤ 90 ∧ a.toNat + 32 = c.toNat) ∨
        (65 ≤ c.toNat ∧ c.toNat ≤ 90 ∧ c.toNat + 32 = a.toNat)) := by
  simp [ciEq]
  tauto

theorem isAln_true_iff {c : Char} :
    isAln c = true ↔
      ((97 ≤ c.toNat ∧ c.toNat ≤ 122) ∨ (65 ≤ c.toNat ∧ c.toNat ≤ 90) ∨
        (48 ≤ c.toNat ∧ c.toNat ≤ 57)) := by
  simp [isAln]
  tauto

/-- A character case-insensitively equal to a lowercase letter is
alphanumeric. -/
theorem aln_of_ciEq {a c : Char} (ha : 97 ≤ a.toNat ∧ a.toNat ≤ 122)
    (h : ciEq a c = true) : isAln c = true := by
  rw [ciEq_true_iff] at h
  rw [isAln_true_iff]
  omega

theorem ciStarts_length : ∀ {p l : List Char}, ciStarts p l = true → p.length ≤ l.length := by
  intro p
  induction p with
  | nil => intro l _; simp
  | cons a p ih =>
    intro l h
    cases l with
    | nil => simp [ciStarts] at h
    | cons c t =>
      simp only [ciStarts, Bool.and_eq_true] at h
      have := ih h.2
      simp only [List.length_cons]
      omega

theorem ciStarts_get? : ∀ {p l : List Char}, ciStarts p l = true →
    ∀ {k : Nat} {a : Char}, p.get? k = some a →
      ∃ x, l.get? k = some x ∧ ciEq a x = true := by
  intro p
  induction p with
  | nil => intro l _ k a hk; simp at hk
  | cons b p ih =>
    intro l h k a hk
    cases l with
    | nil => simp [ciStarts] at h
    | cons c t =>
      simp only [ciStarts, Bool.and_eq_true] at h
      cases k with
      | zero =>
        rw [List.get?_cons_zero] at hk
        injection hk with hk
        subst hk
        exact ⟨c, by simp, h.1⟩
      | succ k =>
        rw [List.get?_cons_succ] at hk
        obtain ⟨x, hx1, hx2⟩ := ih h.2 hk
        exact ⟨x, by rw [List.get?_cons_succ]; exact hx1, hx2⟩

theorem ciStarts_of_get? : ∀ {p l : List Char}, p.length ≤ l.length →
    (∀ k a x, p.get? k = some a → l.get? k = some x → ciEq a x = true) →
    ciStarts p l = true := by
  intro p
  induction p with
  | nil => intro l _ _; rfl
  | cons b p ih =>
    intro l hl hget
    cases l with
    | nil => simp at hl
    | cons c t =>
      simp only [ciStarts, Bool.and_eq_true]
      refine ⟨hget 0 b c (by simp) (by simp), ?_⟩
      refine ih (by simp only [List.length_cons] at hl; omega) ?_
      intro k a x h1 h2
      exact hget (k + 1) a x (by rw [List.get?_cons_succ]; exact h1)
        (by rw [List.get?_cons_succ]; exact h2)

theorem ciStarts_congr : ∀ (p : List Char) {l₁ l₂ : List Char},
    l₁.take p.length = l₂.take p.length → ciStarts p l₁ = ciStarts p l₂ := by
  intro p
  induction p with
  | nil => intro l₁ l₂ _; rfl
  | cons a p ih =>
    intro l₁ l₂ h
    cases l₁ with
    | nil =>
      cases l₂ with
      | nil => rfl
      | cons c2 t2 => simp at h
    | cons c1 t1 =>
      cases l₂ with
      | nil => simp at h
      | cons c2 t2 =>
        simp only [List.length_cons, List.take_succ_cons] at h
        injection h with h1 h2
        subst h1
        simp only [ciStarts]
        rw [ih h2]

theorem alnumRun_true_iff : ∀ (n : Nat) (l : List Char),
    alnumRun n l = true ↔ n ≤ l.length ∧ ∀ c ∈ l.take n, isAln c = true := by
  intro n
  induction n with
  | zero => intro l; simp [alnumRun]
  | succ n ih =>
    intro l
    cases l with
    | nil => simp [alnumRun]
    | cons c t =>
      simp only [alnumRun, Bool.and_eq_true, ih, List.take_succ_cons, List.mem_cons,
        List.length_cons]
      constructor
      · rintro ⟨h1, h2, h3⟩
        refine ⟨by omega, ?_⟩
        rintro x (rfl | hx)
        · exact h1
        · exact h3 x hx
      · rintro ⟨h1, h2⟩
        exact ⟨h2 c (Or.inl rfl), by omega, fun x hx => h2 x (Or.inr hx)⟩

theorem alnumRun_get? {n : Nat} {l : List Char} (h : alnumRun n l = true) {k : Nat} {c : Char}
    (hk : k < n) (hc : l.get? k = some c) : isAln c = true := by
  rw [alnumRun_true_iff] at h
  exact h.2 c (List.get?_mem (by rw [List.get?_take hk]; exact hc))

theorem alnumRun_false_of_get? {n k : Nat} {l : List Char} {c : Char}
    (hk : k < n) (hc : l.get? k = some c) (hz : isAln c = false) : alnumRun n l = false := by
  by_contra h
  rw [Bool.not_eq_false] at h
  rw [alnumRun_get? h hk hc] at hz
  cases hz

theorem alnumRun_of_get? {n : Nat} {l : List Char} (hl : n ≤ l.length)
    (h : ∀ k c, k < n → l.get? k = some c → isAln c = true) : alnumRun n l = true := by
  rw [alnumRun_true_iff]
  refine ⟨hl, ?_⟩
  intro c hc
  obtain ⟨k, hk⟩ := List.get?_of_mem hc
  have hklen : k < (l.take n).length := by
    by_contra hh
    push_neg at hh
    rw [List.get?_eq_none.mpr hh] at hk
    cases hk
  rw [List.length_take] at hklen
  have hk1 : k < n := by omega
  rw [List.get?_take hk1] at hk
  exact h k c hk1 hk

theorem alnumRun_congr : ∀ (n : Nat) {l₁ l₂ : List Char}, l₁.take n = l₂.take n →
    alnumRun n l₁ = alnumRun n l₂ := by
  intro n
  induction n with
  | zero => intro l₁ l₂ _; rfl
  | succ n ih =>
    intro l₁ l₂ h
    cases l₁ with
    | nil =>
      cases l₂ with
      | nil => rfl
      | cons c t => simp at h
    | cons c1 t1 =>
      cases l₂ with
      | nil => simp at h
      | cons c2 t2 =>
        simp only [List.take_succ_cons] at h
        injection h with h1 h2
        subst h1
        simp only [alnumRun]
        rw [ih h2]

theorem match1_congr {l₁ l₂ : List Char} (h : l₁.take 40 = l₂.take 40) :
    match1 l₁ = match1 l₂ := by
  unfold match1
  have h4 : l₁.take 4 = l₂.take 4 := by
    rw [show (4 : Nat) = min 4 40 from rfl, ← List.take_take, ← List.take_take, h]
  have h36 : (l₁.drop 4).take 36 = (l₂.drop 4).take 36 := by
    rw [List.take_drop, List.take_drop]
    simp only [show (4 : Nat) + 36 = 40 from rfl]
    rw [h]
  rw [ciStarts_congr ['g', 'h', 'p', '_']
    (show l₁.take (['g', 'h', 'p', '_'].length) = l₂.take (['g', 'h', 'p', '_'].length) from h4),
    alnumRun_congr _ h36]

theorem match2_congr {l₁ l₂ : List Char} (h : l₁.take 51 = l₂.take 51) :
    match2 l₁ = match2 l₂ := by
  unfold match2
  have h3 : l₁.take 3 = l₂.take 3 := by
    rw [show (3 : Nat) = min 3 51 from rfl, ← List.take_take, ← List.take_take, h]
  have h48 : (l₁.drop 3).take 48 = (l₂.drop 3).take 48 := by
    rw [List.take_drop, List.take_drop]
    simp only [show (3 : Nat) + 48 = 51 from rfl]
    rw [h]
  rw [ciStarts_congr ['s', 'k', '-']
    (show l₁.take (['s', 'k', '-'].length) = l₂.take (['s', 'k', '-'].length) from h3),
    alnumRun_congr _ h48]

theorem match1_length {l : List Char} (h : match1 l = true) : 40 ≤ l.length := by
  unfold match1 at h
  rw [Bool.and_eq_true] at h
  have h1 := ciStarts_length h.1
  have h2 := ((alnumRun_true_iff 36 _).mp h.2).1
  rw [List.length_drop] at h2
  omega

theorem match2_length {l : List Char} (h : match2 l = true) : 51 ≤ l.length := by
  unfold match2 at h
  rw [Bool.and_eq_true] at h
  have h1 := ciStarts_length h.1
  have h2 := ((alnumRun_true_iff 48 _).mp h.2).1
  rw [List.length_drop] at h2
  omega

theorem ciEq_lower_excl {a b x : Char} (ha : 97 ≤ a.toNat ∧ a.toNat ≤ 122)
    (hb : 97 ≤ b.toNat ∧ b.toNat ≤ 122) (hne : a.toNat ≠ b.toNat)
    (h : ciEq a x = true) : ciEq b x = false := by
  rw [ciEq_true_iff] at h
  rw [Bool.eq_false_iff, Ne, ciEq_true_iff]
  omega

theorem tryWord_some_spec {w l wchars afterEq : List Char}
    (h : tryWord w l = some (wchars, afterEq)) :
    ciStarts w l = true ∧ wchars = l.take w.length ∧ l.get? w.length = some '=' ∧
      l.drop (w.length + 1) = afterEq ∧
      ∃ c rest, afterEq = c :: rest ∧ isNonSp c = true := by
  unfold tryWord at h
  split at h
  · rename_i hs
    split at h
    · rename_i c rest heq
      split at h
      · rename_i hns
        injection h with h'
        injection h' with h1 h2
        refine ⟨hs, h1.symm, ?_, ?_, c, rest, h2.symm, hns⟩
        · have h0 : (l.drop w.length).get? 0 = some '=' := by rw [heq]; rfl
          rw [List.get?_drop] at h0
          simpa using h0
        · rw [← List.drop_drop, heq, ← h2]
          rfl
      · cases h
    · cases h
  · cases h

theorem match3_some_spec {l wchars afterEq : List Char}
    (h : match3 l = some (wchars, afterEq)) :
    ∃ w, (w = tokenW ∨ w = keyW ∨ w = secretW ∨ w = passwordW) ∧
      ciStarts w l = true ∧ wchars = l.take w.length ∧ l.get? w.length = some '=' ∧
      l.drop (w.length + 1) = afterEq ∧
      ∃ c rest, afterEq = c :: rest ∧ isNonSp c = true := by
  unfold match3 at h
  split at h
  · rename_i r heq
    injection h with h'
    subst h'
    exact ⟨tokenW, Or.inl rfl, tryWord_some_spec heq⟩
  · split at h
    · rename_i r heq
      injection h with h'
      subst h'
      exact ⟨keyW, Or.inr (Or.inl rfl), tryWord_some_spec heq⟩
    · split at h
      · rename_i r heq
        injection h with h'
        subst h'
        exact ⟨secretW, Or.inr (Or.inr (Or.inl rfl)), tryWord_some_spec heq⟩
      · exact ⟨passwordW, Or.inr (Or.inr (Or.inr rfl)), tryWord_some_spec h⟩

theorem tryWord_none_of_first {w l : List Char} {a x : Char}
    (hw : w.get? 0 = some a) (hl : l.get? 0 = some x) (hne : ciEq a x = false) :
    tryWord w l = none := by
  unfold tryWord
  rw [if_neg ?_]
  intro hs
  cases w with
  | nil => cases hw
  | cons a' w' =>
    cases l with
    | nil => simp [ciStarts] at hs
    | cons x' t =>
      rw [List.get?_cons_zero] at hw hl
      injection hw with hw
      injection hl with hl
      subst hw
      subst hl
      simp only [ciStarts, Bool.and_eq_true] at hs
      rw [hs.1] at hne
      cases hne

theorem tryWord_some_intro {w l : List Char} (hs : ciStarts w l = true)
    (heq : l.get? w.length = some '=') {c : Char} {rest : List Char}
    (hafter : l.drop (w.length + 1) = c :: rest) (hns : isNonSp c = true) :
    tryWord w l = some (l.take w.length, c :: rest) := by
  unfold tryWord
  rw [if_pos hs]
  have hd : l.drop w.length = '=' :: c :: rest := by
    cases hdrop : l.drop w.length with
    | nil =>
      have h0 : (l.drop w.length).get? 0 = some '=' := by
        rw [List.get?_drop]
        simpa using heq
      rw [hdrop] at h0
      cases h0
    | cons e t =>
      have h0 : (l.drop w.length).get? 0 = some '=' := by
        rw [List.get?_drop]
        simpa using heq
      rw [hdrop] at h0
      rw [List.get?_cons_zero] at h0
      injection h0 with h0
      subst h0
      have ht : t = c :: rest := by
        rw [← hafter, ← List.drop_drop, hdrop]
        rfl
      rw [ht]
  rw [hd]
  simp [hns]

/-- First characters of the four alternatives, for the disjointness
argument.  The words' first letters are pairwise distinct lowercase
letters, so at most one alternative can match at a given position. -/
theorem match3_eq_of_tryWord {l : List Char} {w : List Char} {r : List Char × List Char}
    (hw : w = tokenW ∨ w = keyW ∨ w = secretW ∨ w = passwordW)
    (h : tryWord w l = some r) : match3 l = some r := by
  obtain ⟨r1, r2⟩ := r
  obtain ⟨hs, -, -, -, -⟩ := tryWord_some_spec h
  have hx : ∃ x, l.get? 0 = some x ∧ ciEq (w.headI) x = true := by
    rcases hw with rfl | rfl | rfl | rfl
    all_goals
      obtain ⟨x, hx1, hx2⟩ := ciStarts_get? hs (k := 0) (a := _) (by rfl)
      exact ⟨x, hx1, hx2⟩
  obtain ⟨x, hx1, hx2⟩ := hx
  unfold match3
  rcases hw with rfl | rfl | rfl | rfl
  · rw [h]
  · rw [tryWord_none_of_first (a := 't') (by rfl) hx1
      (ciEq_lower_excl (by decide) (by decide) (by decide) hx2), h]
  · rw [tryWord_none_of_first (a := 't') (by rfl) hx1
      (ciEq_lower_excl (by decide) (by decide) (by decide) hx2),
      tryWord_none_of_first (a := 'k') (by rfl) hx1
      (ciEq_lower_excl (by decide) (by decide) (by decide) hx2), h]
  · rw [tryWord_none_of_first (a := 't') (by rfl) hx1
      (ciEq_lower_excl (by decide) (by decide) (by decide) hx2),
      tryWord_none_of_first (a := 'k') (by rfl) hx1
      (ciEq_lower_excl (by decide) (by decide) (by decide) hx2),
      tryWord_none_of_first (a := 's') (by rfl) hx1
      (ciEq_lower_excl (by decide) (by decide) (by decide) hx2), h]

theorem match1_nil : match1 [] = false := rfl

theorem match2_nil : match2 [] = false := rfl

theorem match3_nil : match3 [] = none := rfl

/-- Decomposition of a `sub1` scan at its first match (if any). -/
theorem sub1_structure : ∀ z : List Char,
    (sub1 z = z ∧ ∀ j, match1 (z.drop j) = false) ∨
    (∃ i, (∀ j < i, match1 (z.drop j) = false) ∧ match1 (z.drop i) = true ∧
      i + 40 ≤ z.length ∧
      sub1 z = z.take i ++ repl1 ++ sub1 ((z.drop i).drop 40)) := by
  have H : ∀ (n : Nat) (z : List Char), z.length ≤ n →
      (sub1 z = z ∧ ∀ j, match1 (z.drop j) = false) ∨
      (∃ i, (∀ j < i, match1 (z.drop j) = false) ∧ match1 (z.drop i) = true ∧
        i + 40 ≤ z.length ∧
        sub1 z = z.take i ++ repl1 ++ sub1 ((z.drop i).drop 40)) := by
    intro n
    induction n with
    | zero =>
      intro z hz
      rw [Nat.le_zero, List.length_eq_zero] at hz
      subst hz
      left
      exact ⟨by rw [sub1], fun j => by rw [List.drop_nil]; exact match1_nil⟩
    | succ n ih =>
      intro z hz
      cases z with
      | nil => left; exact ⟨by rw [sub1], fun j => by rw [List.drop_nil]; exact match1_nil⟩
      | cons c rest =>
        by_cases hm : match1 (c :: rest) = true
        · right
          refine ⟨0, fun j hj => absurd hj (by omega), by rwa [List.drop_zero], ?_, ?_⟩
          · have := match1_length hm
            omega
          · rw [sub1, if_pos hm]
            rfl
        · have hs : sub1 (c :: rest) = c :: sub1 rest := by rw [sub1, if_neg hm]
          have hm' : match1 (c :: rest) = false := Bool.eq_false_iff.mpr hm
          rcases ih rest (by simp only [List.length_cons] at hz; omega) with
            ⟨e, hnm⟩ | ⟨i, hpre, hmi, hlen, he⟩
          · left
            refine ⟨by rw [hs, e], ?_⟩
            intro j
            cases j with
            | zero => rwa [List.drop_zero]
            | succ j => rw [List.drop_succ_cons]; exact hnm j
          · right
            refine ⟨i + 1, ?_, ?_, ?_, ?_⟩
            · intro j hj
              cases j with
              | zero => rwa [List.drop_zero]
              | succ j => rw [List.drop_succ_cons]; exact hpre j (by omega)
            · rwa [List.drop_succ_cons]
            · simp only [List.length_cons]; omega
            · rw [hs, he, List.take_succ_cons, List.drop_succ_cons]
              simp [List.cons_append, List.append_assoc]
  exact fun z => H z.length z le_rfl

/-- Decomposition of a `sub2` scan at its first match (if any). -/
theorem sub2_structure : ∀ z : List Char,
    (sub2 z = z ∧ ∀ j, match2 (z.drop j) = false) ∨
    (∃ i, (∀ j < i, match2 (z.drop j) = false) ∧ match2 (z.drop i) = true ∧
      i + 51 ≤ z.length ∧
      sub2 z = z.take i ++ repl2 ++ sub2 ((z.drop i).drop 51)) := by
  have H : ∀ (n : Nat) (z : List Char), z.length ≤ n →
      (sub2 z = z ∧ ∀ j, match2 (z.drop j) = false) ∨
      (∃ i, (∀ j < i, match2 (z.drop j) = false) ∧ match2 (z.drop i) = true ∧
        i + 51 ≤ z.length ∧
        sub2 z = z.take i ++ repl2 ++ sub2 ((z.drop i).drop 51)) := by
    intro n
    induction n with
    | zero =>
      intro z hz
      rw [Nat.le_zero, List.length_eq_zero] at hz
      subst hz
      left
      exact ⟨by rw [sub2], fun j => by rw [List.drop_nil]; exact match2_nil⟩
    | succ n ih =>
      intro z hz
      cases z with
      | nil => left; exact ⟨by rw [sub2], fun j => by rw [List.drop_nil]; exact match2_nil⟩
      | cons c rest =>
        by_cases hm : match2 (c :: rest) = true
        · right
          refine ⟨0, fun j hj => absurd hj (by omega), by rwa [List.drop_zero], ?_, ?_⟩
          · have := match2_length hm
            omega
          · rw [sub2, if_pos hm]
            rfl
        · have hs : sub2 (c :: rest) = c :: sub2 rest := by rw [sub2, if_neg hm]
          have hm' : match2 (c :: rest) = false := Bool.eq_false_iff.mpr hm
          rcases ih rest (by simp only [List.length_cons] at hz; omega) with
            ⟨e, hnm⟩ | ⟨i, hpre, hmi, hlen, he⟩
          · left
            refine ⟨by rw [hs, e], ?_⟩
            intro j
            cases j with
            | zero => rwa [List.drop_zero]
            | succ j => rw [List.drop_succ_cons]; exact hnm j
          · right
            refine ⟨i + 1, ?_, ?_, ?_, ?_⟩
            · intro j hj
              cases j with
              | zero => rwa [List.drop_zero]
              | succ j => rw [List.drop_succ_cons]; exact hpre j (by omega)
            · rwa [List.drop_succ_cons]
            · simp only [List.length_cons]; omega
            · rw [hs, he, List.take_succ_cons, List.drop_succ_cons]
              simp [List.cons_append, List.append_assoc]
  exact fun z => H z.length z le_rfl

/-- Decomposition of a `sub3` scan at its first match (if any). -/
theorem sub3_structure : ∀ z : List Char,
    (sub3 z = z ∧ ∀ j, match3 (z.drop j) = none) ∨
    (∃ i wchars afterEq, (∀ j < i, match3 (z.drop j) = none) ∧
      match3 (z.drop i) = some (wchars, afterEq) ∧
      sub3 z = z.take i ++ (wchars ++ eqRedacted) ++ sub3 (afterEq.dropWhile isNonSp)) := by
  have H : ∀ (n : Nat) (z : List Char), z.length ≤ n →
      (sub3 z = z ∧ ∀ j, match3 (z.drop j) = none) ∨
      (∃ i wchars afterEq, (∀ j < i, match3 (z.drop j) = none) ∧
        match3 (z.drop i) = some (wchars, afterEq) ∧
        sub3 z = z.take i ++ (wchars ++ eqRedacted) ++ sub3 (afterEq.dropWhile isNonSp)) := by
    intro n
    induction n with
    | zero =>
      intro z hz
      rw [Nat.le_zero, List.length_eq_zero] at hz
      subst hz
      left
      exact ⟨by rw [sub3], fun j => by rw [List.drop_nil]; exact match3_nil⟩
    | succ n ih =>
      intro z hz
      cases z with
      | nil => left; exact ⟨by rw [sub3], fun j => by rw [List.drop_nil]; exact match3_nil⟩
      | cons c rest =>
        cases hm : match3 (c :: rest) with
        | some r =>
          right
          refine ⟨0, r.1, r.2, fun j hj => absurd hj (by omega), by rwa [List.drop_zero], ?_⟩
          rw [sub3]
          rw [show match3 (c :: rest) = some (r.1, r.2) from by rwa [Prod.mk.eta]]
          rfl
        | none =>
          have hs : sub3 (c :: rest) = c :: sub3 rest := by rw [sub3, hm]
          rcases ih rest (by simp only [List.length_cons] at hz; omega) with
            ⟨e, hnm⟩ | ⟨i, wchars, afterEq, hpre, hmi, he⟩
          · left
            refine ⟨by rw [hs, e], ?_⟩
            intro j
            cases j with
            | zero => rwa [List.drop_zero]
            | succ j => rw [List.drop_succ_cons]; exact hnm j
          · right
            refine ⟨i + 1, wchars, afterEq, ?_, ?_, ?_⟩
            · intro j hj
              cases j with
              | zero => rwa [List.drop_zero]
              | succ j => rw [List.drop_succ_cons]; exact hpre j (by omega)
            · rwa [List.drop_succ_cons]
            · rw [hs, he, List.take_succ_cons]
              simp [List.cons_append, List.append_assoc]
  exact fun z => H z.length z le_rfl

/-- Character of the preserved prefix inside a scan decomposition. -/
theorem get?_ctx_low {c : Char} {r X : List Char} {i j : Nat} (hij : j < i)
    (hir : i ≤ r.length) :
    (c :: (r.take i ++ X)).get? (j + 1) = r.get? j := by
  rw [List.get?_cons_succ, List.get?_append (by rw [List.length_take]; omega),
    List.get?_take hij]

/-- Character of the replacement segment inside a scan decomposition. -/
theorem get?_ctx_mid {c : Char} {r X A : List Char} {i k : Nat} (hir : i ≤ r.length)
    (hk : k < A.length) :
    (c :: (r.take i ++ (A ++ X))).get? (i + k + 1) = A.get? k := by
  rw [List.get?_cons_succ, List.get?_append_right (by rw [List.length_take]; omega)]
  have hmin : (r.take i).length = i := by rw [List.length_take]; omega
  rw [hmin, show i + k - i = k from by omega, List.get?_append hk]

/-- If `ghp_…` does not match at the head of `c :: r`, it does not match at
the head of `c :: sub1 r` either: a replacement inside the 39-character
window either plants a non-alphanumeric `_` into the required run, or the
window is unchanged, or the matched `ghp` letters already completed a match
in the original. -/
theorem match1_cons_sub1 {c : Char} {r : List Char} (h : match1 (c :: r) = false) :
    match1 (c :: sub1 r) = false := by
  rcases sub1_structure r with ⟨e, -⟩ | ⟨i, hpre, hmi, hlen, he⟩
  · rwa [e]
  · rw [List.append_assoc] at he
    rw [he]
    by_cases hi : 39 ≤ i
    · have ht : (c :: (r.take i ++ (repl1 ++ sub1 ((r.drop i).drop 40)))).take 40 =
          (c :: r).take 40 := by
        rw [show ∀ X : List Char, (c :: X).take 40 = c :: X.take 39 from fun X => rfl,
          show (c :: r).take 40 = c :: r.take 39 from rfl]
        congr 1
        rw [List.take_append_of_le_length (by rw [List.length_take]; omega),
          List.take_take, show min 39 i = 39 from by omega]
      rw [match1_congr ht]
      exact h
    · push_neg at hi
      by_cases hi2 : i ≤ 35
      · unfold match1
        have hB : alnumRun 36
            ((c :: (r.take i ++ (repl1 ++ sub1 ((r.drop i).drop 40)))).drop 4) = false := by
          apply alnumRun_false_of_get? (k := i) (c := '_') (by omega)
          · rw [List.get?_drop, show 4 + i = i + 3 + 1 from by omega,
              get?_ctx_mid (by omega) (by decide : 3 < repl1.length)]
            rfl
          · decide
        rw [hB, Bool.and_false]
      · push_neg at hi2
        by_contra hM
        rw [Bool.not_eq_false] at hM
        unfold match1 at hM
        rw [Bool.and_eq_true] at hM
        obtain ⟨hA, hB⟩ := hM
        unfold match1 at hmi
        rw [Bool.and_eq_true] at hmi
        obtain ⟨hA', hB'⟩ := hmi
        have hnew : match1 (c :: r) = true := by
          unfold match1
          rw [Bool.and_eq_true]
          constructor
          · have ht4 : (c :: (r.take i ++ (repl1 ++ sub1 ((r.drop i).drop 40)))).take 4 =
                (c :: r).take 4 := by
              rw [show ∀ X : List Char, (c :: X).take 4 = c :: X.take 3 from fun X => rfl,
                show (c :: r).take 4 = c :: r.take 3 from rfl]
              congr 1
              rw [List.take_append_of_le_length (by rw [List.length_take]; omega),
                List.take_take, show min 3 i = 3 from by omega]
            rw [← ciStarts_congr ['g', 'h', 'p', '_']
              (show (c :: (r.take i ++ (repl1 ++ sub1 ((r.drop i).drop 40)))).take
                  (['g', 'h', 'p', '_'].length) = (c :: r).take (['g', 'h', 'p', '_'].length)
                from ht4)]
            exact hA
          · rw [List.drop_succ_cons]
            apply alnumRun_of_get?
            · rw [List.length_drop]
              omega
            · intro k x hk hx
              rw [List.get?_drop] at hx
              by_cases hcase : 3 + k < i
              · apply alnumRun_get? hB (k := k) hk
                rw [List.get?_drop, show 4 + k = (3 + k) + 1 from by omega,
                  get?_ctx_low hcase (by omega)]
                exact hx
              · push_neg at hcase
                have hm3 : 3 + k - i < 3 := by omega
                have hii : i + (3 + k - i) = 3 + k := by omega
                have hget : (r.drop i).get? (3 + k - i) = some x := by
                  rw [List.get?_drop, hii]
                  exact hx
                have hax : ∃ a, ['g', 'h', 'p', '_'].get? (3 + k - i) = some a ∧
                    97 ≤ a.toNat ∧ a.toNat ≤ 122 := by
                  rcases (by omega : 3 + k - i = 0 ∨ 3 + k - i = 1 ∨ 3 + k - i = 2) with
                    hv | hv | hv <;> rw [hv]
                  · exact ⟨'g', rfl, by decide⟩
                  · exact ⟨'h', rfl, by decide⟩
                  · exact ⟨'p', rfl, by decide⟩
                obtain ⟨a, ha1, ha2⟩ := hax
                obtain ⟨x', hx1, hx2⟩ := ciStarts_get? hA' ha1
                rw [hget] at hx1
                injection hx1 with hx1
                subst hx1
                exact aln_of_ciEq ha2 hx2
        rw [hnew] at h
        cases h

/-- No occurrence of the `ghp_…` pattern anywhere in `l`. -/
def noM1 (l : List Char) : Prop := ∀ j, match1 (l.drop j) = false

/-- No occurrence of the `sk-…` pattern anywhere in `l`. -/
def noM2 (l : List Char) : Prop := ∀ j, match2 (l.drop j) = false

theorem noM1_drop {l : List Char} (h : noM1 l) (k : Nat) : noM1 (l.drop k) := by
  intro j
  rw [List.drop_drop]
  exact h _

theorem noM2_drop {l : List Char} (h : noM2 l) (k : Nat) : noM2 (l.drop k) := by
  intro j
  rw [List.drop_drop]
  exact h _

theorem match1_cons_false {x : Char} (hx : ciEq 'g' x = false) (w : List Char) :
    match1 (x :: w) = false := by
  unfold match1
  have : ciStarts ['g', 'h', 'p', '_'] (x :: w) = false := by
    simp only [ciStarts, hx, Bool.false_and]
  rw [this, Bool.false_and]

theorem match2_cons_false {x : Char} (hx : ciEq 's' x = false) (w : List Char) :
    match2 (x :: w) = false := by
  unfold match2
  have : ciStarts ['s', 'k', '-'] (x :: w) = false := by
    simp only [ciStarts, hx, Bool.false_and]
  rw [this, Bool.false_and]

theorem match1_repl1_append (t : List Char) : match1 (repl1 ++ t) = false := by
  unfold match1
  have h : alnumRun 36 ((repl1 ++ t).drop 4) = false := by
    show alnumRun 36 ('*' :: _) = false
    simp only [alnumRun, show isAln '*' = false from by decide, Bool.false_and]
  rw [h, Bool.and_false]

theorem match2_repl2_append (t : List Char) : match2 (repl2 ++ t) = false := by
  unfold match2
  have h : alnumRun 48 ((repl2 ++ t).drop 3) = false := by
    show alnumRun 48 ('*' :: _) = false
    simp only [alnumRun, show isAln '*' = false from by decide, Bool.false_and]
  rw [h, Bool.and_false]

/-- No `ghp_…` match can start inside the text `repl1` substitutes. -/
theorem noM1_repl1_append {t : List Char} (ht : noM1 t) : noM1 (repl1 ++ t) := by
  intro j
  by_cases hj : j < 18
  · rw [List.drop_append_of_le_length (by simp [repl1]; omega)]
    interval_cases j
    · exact match1_repl1_append t
    all_goals exact match1_cons_false (by decide) _
  · push_neg at hj
    rw [show j = 18 + (j - 18) from by omega, ← List.drop_drop,
      show List.drop 18 (repl1 ++ t) = t from rfl]
    exact ht _

/-- No `sk-…` match can start inside the text `repl2` substitutes. -/
theorem noM2_repl2_append {t : List Char} (ht : noM2 t) : noM2 (repl2 ++ t) := by
  intro j
  by_cases hj : j < 17
  · rw [List.drop_append_of_le_length (by simp [repl2]; omega)]
    interval_cases j
    · exact match2_repl2_append t
    all_goals exact match2_cons_false (by decide) _
  · push_neg at hj
    rw [show j = 17 + (j - 17) from by omega, ← List.drop_drop,
      show List.drop 17 (repl2 ++ t) = t from rfl]
    exact ht _

/-- No `ghp_…` match can start inside the text `repl2` substitutes. -/
theorem noM1_repl2_append {t : List Char} (ht : noM1 t) : noM1 (repl2 ++ t) := by
  intro j
  by_cases hj : j < 17
  · rw [List.drop_append_of_le_length (by simp [repl2]; omega)]
    interval_cases j
    all_goals exact match1_cons_false (by decide) _
  · push_neg at hj
    rw [show j = 17 + (j - 17) from by omega, ← List.drop_drop,
      show List.drop 17 (repl2 ++ t) = t from rfl]
    exact ht _


theorem match1_second_kill {x : Char} (hx : ciEq 'h' x = false) (c : Char) (w : List Char) :
    match1 (c :: x :: w) = false := by
  unfold match1
  have hcs : ciStarts ['g', 'h', 'p', '_'] (c :: x :: w) = false := by
    simp only [ciStarts, hx, Bool.false_and, Bool.and_false]
  rw [hcs, Bool.false_and]

/-- `sk-…` does not newly match at the head after a `sub2` pass of the
tail. -/
theorem match2_cons_sub2 {c : Char} {r : List Char} (h : match2 (c :: r) = false) :
    match2 (c :: sub2 r) = false := by
  rcases sub2_structure r with ⟨e, -⟩ | ⟨i, hpre, hmi, hlen, he⟩
  · rwa [e]
  · rw [List.append_assoc] at he
    rw [he]
    by_cases hi : 50 ≤ i
    · have ht : (c :: (r.take i ++ (repl2 ++ sub2 ((r.drop i).drop 51)))).take 51 =
          (c :: r).take 51 := by
        rw [show ∀ X : List Char, (c :: X).take 51 = c :: X.take 50 from fun X => rfl,
          show (c :: r).take 51 = c :: r.take 50 from rfl]
        congr 1
        rw [List.take_append_of_le_length (by rw [List.length_take]; omega),
          List.take_take, show min 50 i = 50 from by omega]
      rw [match2_congr ht]
      exact h
    · push_neg at hi
      by_cases hi2 : i ≤ 47
      · unfold match2
        have hB : alnumRun 48
            ((c :: (r.take i ++ (repl2 ++ sub2 ((r.drop i).drop 51)))).drop 3) = false := by
          apply alnumRun_false_of_get? (k := i) (c := '-') (by omega)
          · rw [List.get?_drop, show 3 + i = i + 2 + 1 from by omega,
              get?_ctx_mid (by omega) (by decide : 2 < repl2.length)]
            rfl
          · decide
        rw [hB, Bool.and_false]
      · push_neg at hi2
        by_contra hM
        rw [Bool.not_eq_false] at hM
        unfold match2 at hM
        rw [Bool.and_eq_true] at hM
        obtain ⟨hA, hB⟩ := hM
        unfold match2 at hmi
        rw [Bool.and_eq_true] at hmi
        obtain ⟨hA', hB'⟩ := hmi
        have hnew : match2 (c :: r) = true := by
          unfold match2
          rw [Bool.and_eq_true]
          constructor
          · have ht3 : (c :: (r.take i ++ (repl2 ++ sub2 ((r.drop i).drop 51)))).take 3 =
                (c :: r).take 3 := by
              rw [show ∀ X : List Char, (c :: X).take 3 = c :: X.take 2 from fun X => rfl,
                show (c :: r).take 3 = c :: r.take 2 from rfl]
              congr 1
              rw [List.take_append_of_le_length (by rw [List.length_take]; omega),
                List.take_take, show min 2 i = 2 from by omega]
            rw [← ciStarts_congr ['s', 'k', '-']
              (show (c :: (r.take i ++ (repl2 ++ sub2 ((r.drop i).drop 51)))).take
                  (['s', 'k', '-'].length) = (c :: r).take (['s', 'k', '-'].length)
                from ht3)]
            exact hA
          · rw [List.drop_succ_cons]
            apply alnumRun_of_get?
            · rw [List.length_drop]
              omega
            · intro k x hk hx
              rw [List.get?_drop] at hx
              by_cases hcase : 2 + k < i
              · apply alnumRun_get? hB (k := k) hk
                rw [List.get?_drop, show 3 + k = (2 + k) + 1 from by omega,
                  get?_ctx_low hcase (by omega)]
                exact hx
              · push_neg at hcase
                have hm2 : 2 + k - i < 2 := by omega
                have hii : i + (2 + k - i) = 2 + k := by omega
                have hget : (r.drop i).get? (2 + k - i) = some x := by
                  rw [List.get?_drop, hii]
                  exact hx
                have hax : ∃ a, ['s', 'k', '-'].get? (2 + k - i) = some a ∧
                    97 ≤ a.toNat ∧ a.toNat ≤ 122 := by
                  rcases (by omega : 2 + k - i = 0 ∨ 2 + k - i = 1) with hv | hv <;> rw [hv]
                  · exact ⟨'s', rfl, by decide⟩
                  · exact ⟨'k', rfl, by decide⟩
                obtain ⟨a, ha1, ha2⟩ := hax
                obtain ⟨x', hx1, hx2⟩ := ciStarts_get? hA' ha1
                rw [hget] at hx1
                injection hx1 with hx1
                subst hx1
                exact aln_of_ciEq ha2 hx2
        rw [hnew] at h
        cases h

/-- `ghp_…` does not newly match at the head after a `sub2` pass of the
tail. -/
theorem match1_cons_sub2 {c : Char} {r : List Char} (h : match1 (c :: r) = false) :
    match1 (c :: sub2 r) = false := by
  rcases sub2_structure r with ⟨e, -⟩ | ⟨i, hpre, hmi, hlen, he⟩
  · rwa [e]
  · rw [List.append_assoc] at he
    rw [he]
    by_cases hi : 39 ≤ i
    · have ht : (c :: (r.take i ++ (repl2 ++ sub2 ((r.drop i).drop 51)))).take 40 =
          (c :: r).take 40 := by
        rw [show ∀ X : List Char, (c :: X).take 40 = c :: X.take 39 from fun X => rfl,
          show (c :: r).take 40 = c :: r.take 39 from rfl]
        congr 1
        rw [List.take_append_of_le_length (by rw [List.length_take]; omega),
          List.take_take, show min 39 i = 39 from by omega]
      rw [match1_congr ht]
      exact h
    · push_neg at hi
      by_cases hi0 : i = 0
      · subst hi0
        rw [List.take_zero, List.nil_append]
        exact match1_second_kill (by decide) c _
      · by_cases hi2 : i ≤ 36
        · unfold match1
          have hB : alnumRun 36
              ((c :: (r.take i ++ (repl2 ++ sub2 ((r.drop i).drop 51)))).drop 4) = false := by
            apply alnumRun_false_of_get? (k := i - 1) (c := '-') (by omega)
            · rw [List.get?_drop, show 4 + (i - 1) = i + 2 + 1 from by omega,
                get?_ctx_mid (by omega) (by decide : 2 < repl2.length)]
              rfl
            · decide
          rw [hB, Bool.and_false]
        · push_neg at hi2
          by_contra hM
          rw [Bool.not_eq_false] at hM
          unfold match1 at hM
          rw [Bool.and_eq_true] at hM
          obtain ⟨hA, hB⟩ := hM
          unfold match2 at hmi
          rw [Bool.and_eq_true] at hmi
          obtain ⟨hA', hB'⟩ := hmi
          have hnew : match1 (c :: r) = true := by
            unfold match1
            rw [Bool.and_eq_true]
            constructor
            · have ht4 : (c :: (r.take i ++ (repl2 ++ sub2 ((r.drop i).drop 51)))).take 4 =
                  (c :: r).take 4 := by
                rw [show ∀ X : List Char, (c :: X).take 4 = c :: X.take 3 from fun X => rfl,
                  show (c :: r).take 4 = c :: r.take 3 from rfl]
                congr 1
                rw [List.take_append_of_le_length (by rw [List.length_take]; omega),
                  List.take_take, show min 3 i = 3 from by omega]
              rw [← ciStarts_congr ['g', 'h', 'p', '_']
                (show (c :: (r.take i ++ (repl2 ++ sub2 ((r.drop i).drop 51)))).take
                    (['g', 'h', 'p', '_'].length) = (c :: r).take (['g', 'h', 'p', '_'].length)
                  from ht4)]
              exact hA
            · rw [List.drop_succ_cons]
              apply alnumRun_of_get?
              · rw [List.length_drop]
                omega
              · intro k x hk hx
                rw [List.get?_drop] at hx
                by_cases hcase : 3 + k < i
                · apply alnumRun_get? hB (k := k) hk
                  rw [List.get?_drop, show 4 + k = (3 + k) + 1 from by omega,
                    get?_ctx_low hcase (by omega)]
                  exact hx
                · push_neg at hcase
                  have hm2 : 3 + k - i < 2 := by omega
                  have hii : i + (3 + k - i) = 3 + k := by omega
                  have hget : (r.drop i).get? (3 + k - i) = some x := by
                    rw [List.get?_drop, hii]
                    exact hx
                  have hax : ∃ a, ['s', 'k', '-'].get? (3 + k - i) = some a ∧
                      97 ≤ a.toNat ∧ a.toNat ≤ 122 := by
                    rcases (by omega : 3 + k - i = 0 ∨ 3 + k - i = 1) with hv | hv <;> rw [hv]
                    · exact ⟨'s', rfl, by decide⟩
                    · exact ⟨'k', rfl, by decide⟩
                  obtain ⟨a, ha1, ha2⟩ := hax
                  obtain ⟨x', hx1, hx2⟩ := ciStarts_get? hA' ha1
                  rw [hget] at hx1
                  injection hx1 with hx1
                  subst hx1
                  exact aln_of_ciEq ha2 hx2
          rw [hnew] at h
          cases h

theorem noM1_nil : noM1 [] := fun j => by rw [List.drop_nil]; exact match1_nil

theorem noM2_nil : noM2 [] := fun j => by rw [List.drop_nil]; exact match2_nil

/-- A `sub1` pass leaves no `ghp_…` match anywhere in its output. -/
theorem noM1_sub1 : ∀ z : List Char, noM1 (sub1 z) := by
  have H : ∀ (n : Nat) (z : List Char), z.length ≤ n → noM1 (sub1 z) := by
    intro n
    induction n with
    | zero =>
      intro z hz
      rw [Nat.le_zero, List.length_eq_zero] at hz
      subst hz
      rw [sub1]
      exact noM1_nil
    | succ n ih =>
      intro z hz
      cases z with
      | nil => rw [sub1]; exact noM1_nil
      | cons c rest =>
        by_cases hm : match1 (c :: rest) = true
        · rw [sub1, if_pos hm]
          refine noM1_repl1_append (ih _ ?_)
          rw [List.length_drop]
          simp only [List.length_cons] at hz
          omega
        · rw [sub1, if_neg hm]
          intro j
          cases j with
          | zero =>
            rw [List.drop_zero]
            exact match1_cons_sub1 (Bool.eq_false_iff.mpr hm)
          | succ j =>
            rw [List.drop_succ_cons]
            refine ih _ ?_ j
            simp only [List.length_cons] at hz
            omega
  exact fun z => H z.length z le_rfl

/-- A `sub2` pass leaves no `sk-…` match anywhere in its output. -/
theorem noM2_sub2 : ∀ z : List Char, noM2 (sub2 z) := by
  have H : ∀ (n : Nat) (z : List Char), z.length ≤ n → noM2 (sub2 z) := by
    intro n
    induction n with
    | zero =>
      intro z hz
      rw [Nat.le_zero, List.length_eq_zero] at hz
      subst hz
      rw [sub2]
      exact noM2_nil
    | succ n ih =>
      intro z hz
      cases z with
      | nil => rw [sub2]; exact noM2_nil
      | cons c rest =>
        by_cases hm : match2 (c :: rest) = true
        · rw [sub2, if_pos hm]
          refine noM2_repl2_append (ih _ ?_)
          rw [List.length_drop]
          simp only [List.length_cons] at hz
          omega
        · rw [sub2, if_neg hm]
          intro j
          cases j with
          | zero =>
            rw [List.drop_zero]
            exact match2_cons_sub2 (Bool.eq_false_iff.mpr hm)
          | succ j =>
            rw [List.drop_succ_cons]
            refine ih _ ?_ j
            simp only [List.length_cons] at hz
            omega
  exact fun z => H z.length z le_rfl

/-- A `sub2` pass cannot create a `ghp_…` match. -/
theorem noM1_sub2 : ∀ z : List Char, noM1 z → noM1 (sub2 z) := by
  have H : ∀ (n : Nat) (z : List Char), z.length ≤ n → noM1 z → noM1 (sub2 z) := by
    intro n
    induction n with
    | zero =>
      intro z hz _
      rw [Nat.le_zero, List.length_eq_zero] at hz
      subst hz
      rw [sub2]
      exact noM1_nil
    | succ n ih =>
      intro z hz h
      cases z with
      | nil => rw [sub2]; exact noM1_nil
      | cons c rest =>
        by_cases hm : match2 (c :: rest) = true
        · rw [sub2, if_pos hm]
          refine noM1_repl2_append (ih _ ?_ ?_)
          · rw [List.length_drop]
            simp only [List.length_cons] at hz
            omega
          · have := noM1_drop h 51
            rwa [List.drop_succ_cons] at this
        · rw [sub2, if_neg hm]
          intro j
          cases j with
          | zero =>
            rw [List.drop_zero]
            refine match1_cons_sub2 ?_
            have := h 0
            rwa [List.drop_zero] at this
          | succ j =>
            rw [List.drop_succ_cons]
            refine ih _ ?_ ?_ j
            · simp only [List.length_cons] at hz
              omega
            · have := noM1_drop h 1
              rwa [show (c :: rest).drop 1 = rest from rfl] at this
  exact fun z => H z.length z le_rfl

theorem sub1_id_of_noM1 {z : List Char} (h : noM1 z) : sub1 z = z := by
  rcases sub1_structure z with ⟨e, -⟩ | ⟨i, -, hmi, -, -⟩
  · exact e
  · rw [h i] at hmi
    cases hmi

theorem sub2_id_of_noM2 {z : List Char} (h : noM2 z) : sub2 z = z := by
  rcases sub2_structure z with ⟨e, -⟩ | ⟨i, -, hmi, -, -⟩
  · exact e
  · rw [h i] at hmi
    cases hmi

theorem drop_append_ge {α : Type} {A B : List α} {j : Nat} (h : A.length ≤ j) :
    (A ++ B).drop j = B.drop (j - A.length) := by
  have key : ∀ k : Nat, (A ++ B).drop (A.length + k) = B.drop k := by
    intro k
    rw [← List.drop_drop, List.drop_left]
  have hk := key (j - A.length)
  rwa [show A.length + (j - A.length) = j from by omega] at hk

theorem ciStarts_append_left : ∀ {p a : List Char} (b : List Char),
    ciStarts p a = true → ciStarts p (a ++ b) = true := by
  intro p
  induction p with
  | nil => intro a b _; rfl
  | cons x p ih =>
    intro a b h
    cases a with
    | nil => simp [ciStarts] at h
    | cons c t =>
      simp only [ciStarts, Bool.and_eq_true] at h
      simp only [List.cons_append, ciStarts, Bool.and_eq_true]
      exact ⟨h.1, ih b h.2⟩

theorem ciStarts_take {p l : List Char} (h : ciStarts p l = true) :
    ciStarts p (l.take p.length) = true := by
  refine ciStarts_of_get? ?_ ?_
  · rw [List.length_take]
    have := ciStarts_length h
    omega
  · intro k a x h1 h2
    have hk : k < p.length := by
      by_contra hh
      push_neg at hh
      rw [List.get?_eq_none.mpr hh] at h1
      cases h1
    rw [List.get?_take hk] at h2
    obtain ⟨x', hx1, hx2⟩ := ciStarts_get? h h1
    rw [h2] at hx1
    injection hx1 with hx1
    subst hx1
    exact hx2

theorem dropWhile_eq_drop {p : Char → Bool} : ∀ l : List Char,
    l.dropWhile p = l.drop (l.takeWhile p).length := by
  intro l
  induction l with
  | nil => rfl
  | cons c t ih =>
    by_cases hp : p c = true
    · rw [List.dropWhile_cons, if_pos hp, List.takeWhile_cons, if_pos hp]
      simpa using ih
    · rw [List.dropWhile_cons, if_neg hp, List.takeWhile_cons, if_neg hp]
      rfl

theorem dropWhile_append_all {p : Char → Bool} : ∀ {A : List Char} (B : List Char),
    (∀ c ∈ A, p c = true) → (A ++ B).dropWhile p = B.dropWhile p := by
  intro A
  induction A with
  | nil => intro B _; rfl
  | cons c t ih =>
    intro B h
    rw [List.cons_append, List.dropWhile_cons, if_pos (h c (List.mem_cons_self c t))]
    exact ih B (fun x hx => h x (List.mem_cons_of_mem c hx))

theorem dropWhile_shape {p : Char → Bool} : ∀ l : List Char,
    l.dropWhile p = [] ∨ ∃ d t, l.dropWhile p = d :: t ∧ p d = false := by
  intro l
  induction l with
  | nil => exact Or.inl rfl
  | cons c t ih =>
    by_cases hp : p c = true
    · rw [List.dropWhile_cons, if_pos hp]
      exact ih
    · rw [List.dropWhile_cons, if_neg hp]
      exact Or.inr ⟨c, t, rfl, Bool.eq_false_iff.mpr hp⟩

theorem ciEq_lower_ge {a x : Char} (ha : 97 ≤ a.toNat ∧ a.toNat ≤ 122)
    (h : ciEq a x = true) : 65 ≤ x.toNat := by
  rw [ciEq_true_iff] at h
  omega

theorem pyWs_toNat {d : Char} (h : pyWs d = true) :
    d.toNat = 32 ∨ d.toNat = 9 ∨ d.toNat = 10 ∨ d.toNat = 13 ∨ d.toNat = 11 ∨
      d.toNat = 12 := by
  simp only [pyWs, Bool.or_eq_true, beq_iff_eq] at h
  rcases h with ((((h | h) | h) | h) | h) | h <;> subst h <;> simp

theorem wlen_bounds {w : List Char}
    (hw : w = tokenW ∨ w = keyW ∨ w = secretW ∨ w = passwordW) :
    3 ≤ w.length ∧ w.length ≤ 8 := by
  rcases hw with rfl | rfl | rfl | rfl <;> exact ⟨by decide, by decide⟩

theorem wlower {w : List Char}
    (hw : w = tokenW ∨ w = keyW ∨ w = secretW ∨ w = passwordW) :
    ∀ a ∈ w, 97 ≤ a.toNat ∧ a.toNat ≤ 122 := by
  rcases hw with rfl | rfl | rfl | rfl <;> decide

/-- A whitespace head admits no `word=value` match. -/
theorem match3_none_space {d : Char} (hd : isNonSp d = false) (t : List Char) :
    match3 (d :: t) = none := by
  have hws : pyWs d = true := by
    unfold isNonSp at hd
    rwa [Bool.not_eq_false'] at hd
  have hdn := pyWs_toNat hws
  have hkill : ∀ w : List Char,
      (w = tokenW ∨ w = keyW ∨ w = secretW ∨ w = passwordW) →
      tryWord w (d :: t) = none := by
    intro w hw
    have h0 : ∃ a, w.get? 0 = some a ∧ 97 ≤ a.toNat ∧ a.toNat ≤ 122 := by
      rcases hw with rfl | rfl | rfl | rfl
      · exact ⟨'t', rfl, by decide⟩
      · exact ⟨'k', rfl, by decide⟩
      · exact ⟨'s', rfl, by decide⟩
      · exact ⟨'p', rfl, by decide⟩
    obtain ⟨a, ha0, ha⟩ := h0
    refine tryWord_none_of_first ha0 (List.get?_cons_zero) ?_
    rw [Bool.eq_false_iff, Ne, ciEq_true_iff]
    omega
  unfold match3
  rw [hkill tokenW (Or.inl rfl), hkill keyW (Or.inr (Or.inl rfl)),
    hkill secretW (Or.inr (Or.inr (Or.inl rfl))),
    hkill passwordW (Or.inr (Or.inr (Or.inr rfl)))]

/-- Single-difference form of a `sub3` pass: either the input is returned
unchanged, or the output agrees with the input through some index `m ≥ 3`
holding `=`, continues with `eqRedacted`'s `***REDACTED***`, and the
character the input has right after the `=` is non-space. -/
theorem sub3_structure' (z : List Char) :
    sub3 z = z ∨
    ∃ m s, 3 ≤ m ∧ m + 1 ≤ z.length ∧ z.get? m = some '=' ∧
      (∃ ch rest, z.drop (m + 1) = ch :: rest ∧ isNonSp ch = true) ∧
      sub3 z = z.take m ++ (eqRedacted ++ s) := by
  rcases sub3_structure z with ⟨e, -⟩ | ⟨i, wchars, afterEq, -, hmi, he⟩
  · exact Or.inl e
  · right
    obtain ⟨w, hw, hcs, hwc, hget, hdrop, ch, rest, hae, hns⟩ := match3_some_spec hmi
    have hwb := wlen_bounds hw
    have hwlen : w.length ≤ (z.drop i).length := ciStarts_length hcs
    rw [List.length_drop] at hwlen
    have hiz : i + w.length ≤ z.length := by omega
    refine ⟨i + w.length, sub3 (afterEq.dropWhile isNonSp), by omega, ?_, ?_, ?_, ?_⟩
    · have hg : (z.drop i).get? w.length = some '=' := hget
      rw [List.get?_drop] at hg
      have : i + w.length < z.length := by
        by_contra hh
        push_neg at hh
        rw [List.get?_eq_none.mpr (by omega)] at hg
        cases hg
      omega
    · have hg : (z.drop i).get? w.length = some '=' := hget
      rwa [List.get?_drop] at hg
    · refine ⟨ch, rest, ?_, hns⟩
      rw [← hae, ← hdrop, List.drop_drop]
      congr 1
    · rw [he, hwc, List.take_add]
      simp [List.append_assoc]

/-- Pointwise agreement of a `sub3` pass with its input through the
matched word and its `=`. -/
theorem sub3_agree {z : List Char} {m : Nat} {s : List Char}
    (hmlen : m + 1 ≤ z.length) (heq : z.get? m = some '=')
    (he : sub3 z = z.take m ++ (eqRedacted ++ s)) :
    ∀ j ≤ m, (sub3 z).get? j = z.get? j := by
  intro j hj
  rw [he]
  rcases Nat.lt_or_ge j m with hlt | hge
  · rw [List.get?_append (by rw [List.length_take]; omega), List.get?_take hlt]
  · have hjm : j = m := by omega
    subst hjm
    rw [List.get?_append_right (by rw [List.length_take]; omega), List.length_take,
      show j - min j z.length = 0 from by omega, heq]
    rfl

theorem sub3_take_agree {z : List Char} {m : Nat} {s : List Char}
    (hmlen : m + 1 ≤ z.length) (heq : z.get? m = some '=')
    (he : sub3 z = z.take m ++ (eqRedacted ++ s)) :
    (sub3 z).take (m + 1) = z.take (m + 1) := by
  apply List.ext_get?
  intro n
  rcases Nat.lt_or_ge n (m + 1) with hn | hn
  · rw [List.get?_take hn, List.get?_take hn]
    exact sub3_agree hmlen heq he n (by omega)
  · rw [List.get?_eq_none.mpr (by rw [List.length_take]; omega),
      List.get?_eq_none.mpr (by rw [List.length_take]; omega)]

/-- `ghp_…` does not newly match at the head after a `sub3` pass of the
tail: the replacement plants a `*` right after the preserved `=`, either
inside the required alphanumeric window or beyond the whole match window. -/
theorem match1_cons_sub3 {c : Char} {r : List Char} (h : match1 (c :: r) = false) :
    match1 (c :: sub3 r) = false := by
  rcases sub3_structure' r with e | ⟨m, s, hm3, hmlen, heq, ⟨ch, rest, hdrop, hns⟩, he⟩
  · rwa [e]
  · by_cases hc : m ≤ 37
    · unfold match1
      have hB : alnumRun 36 ((c :: sub3 r).drop 4) = false := by
        apply alnumRun_false_of_get? (k := m - 2) (c := '*') (by omega)
        · rw [List.get?_drop, show 4 + (m - 2) = (m + 1) + 1 from by omega,
            List.get?_cons_succ, he,
            List.get?_append_right (by rw [List.length_take]; omega), List.length_take,
            show m + 1 - min m r.length = 1 from by omega]
          rfl
        · decide
      rw [hB, Bool.and_false]
    · push_neg at hc
      have ht : (c :: sub3 r).take 40 = (c :: r).take 40 := by
        rw [show ∀ X : List Char, (c :: X).take 40 = c :: X.take 39 from fun X => rfl,
          show (c :: r).take 40 = c :: r.take 39 from rfl]
        congr 1
        have hag := sub3_take_agree hmlen heq he
        rw [show (39 : Nat) = min 39 (m + 1) from by omega, ← List.take_take,
          ← List.take_take (n := 39) (m := m + 1) (l := r), hag]
      rw [match1_congr ht]
      exact h

/-- `sk-…` does not newly match at the head after a `sub3` pass of the
tail. -/
theorem match2_cons_sub3 {c : Char} {r : List Char} (h : match2 (c :: r) = false) :
    match2 (c :: sub3 r) = false := by
  rcases sub3_structure' r with e | ⟨m, s, hm3, hmlen, heq, ⟨ch, rest, hdrop, hns⟩, he⟩
  · rwa [e]
  · by_cases hc : m ≤ 48
    · unfold match2
      have hB : alnumRun 48 ((c :: sub3 r).drop 3) = false := by
        apply alnumRun_false_of_get? (k := m - 1) (c := '*') (by omega)
        · rw [List.get?_drop, show 3 + (m - 1) = (m + 1) + 1 from by omega,
            List.get?_cons_succ, he,
            List.get?_append_right (by rw [List.length_take]; omega), List.length_take,
            show m + 1 - min m r.length = 1 from by omega]
          rfl
        · decide
      rw [hB, Bool.and_false]
    · push_neg at hc
      have ht : (c :: sub3 r).take 51 = (c :: r).take 51 := by
        rw [show ∀ X : List Char, (c :: X).take 51 = c :: X.take 50 from fun X => rfl,
          show (c :: r).take 51 = c :: r.take 50 from rfl]
        congr 1
        have hag := sub3_take_agree hmlen heq he
        rw [show (50 : Nat) = min 50 (m + 1) from by omega, ← List.take_take,
          ← List.take_take (n := 50) (m := m + 1) (l := r), hag]
      rw [match2_congr ht]
      exact h

/-- No `ghp_…` match can start inside a kept match word followed by `=`:
the `=` lands either on a literal pattern position or inside the required
alphanumeric window. -/
theorem match1_wsuffix_kill {wc Y : List Char} {k : Nat} (hk : k < wc.length)
    (hw8 : wc.length ≤ 8) (hY : Y.get? 0 = some '=') :
    match1 (wc.drop k ++ Y) = false := by
  have hq : (wc.drop k ++ Y).get? (wc.length - k) = some '=' := by
    rw [List.get?_append_right (by rw [List.length_drop]), List.length_drop,
      Nat.sub_self]
    exact hY
  by_contra hM
  rw [Bool.not_eq_false] at hM
  unfold match1 at hM
  rw [Bool.and_eq_true] at hM
  obtain ⟨hA, hB⟩ := hM
  rcases Nat.lt_or_ge (wc.length - k) 4 with hq4 | hq4
  · have hax : ∃ a, ['g', 'h', 'p', '_'].get? (wc.length - k) = some a ∧
        ciEq a '=' = false := by
      rcases (by omega : wc.length - k = 1 ∨ wc.length - k = 2 ∨ wc.length - k = 3) with
        hv | hv | hv <;> rw [hv]
      · exact ⟨'h', rfl, by decide⟩
      · exact ⟨'p', rfl, by decide⟩
      · exact ⟨'_', rfl, by decide⟩
    obtain ⟨a, ha1, ha2⟩ := hax
    obtain ⟨x, hx1, hx2⟩ := ciStarts_get? hA ha1
    rw [hq] at hx1
    injection hx1 with hx1
    subst hx1
    rw [hx2] at ha2
    cases ha2
  · have hwin := alnumRun_get? hB (k := wc.length - k - 4) (c := '=') (by omega) ?_
    · rw [show isAln '=' = false from by decide] at hwin
      cases hwin
    · rw [List.get?_drop, show 4 + (wc.length - k - 4) = wc.length - k from by omega]
      exact hq

/-- No `sk-…` match can start inside a kept match word followed by `=`. -/
theorem match2_wsuffix_kill {wc Y : List Char} {k : Nat} (hk : k < wc.length)
    (hw8 : wc.length ≤ 8) (hY : Y.get? 0 = some '=') :
    match2 (wc.drop k ++ Y) = false := by
  have hq : (wc.drop k ++ Y).get? (wc.length - k) = some '=' := by
    rw [List.get?_append_right (by rw [List.length_drop]), List.length_drop,
      Nat.sub_self]
    exact hY
  by_contra hM
  rw [Bool.not_eq_false] at hM
  unfold match2 at hM
  rw [Bool.and_eq_true] at hM
  obtain ⟨hA, hB⟩ := hM
  rcases Nat.lt_or_ge (wc.length - k) 3 with hq3 | hq3
  · have hax : ∃ a, ['s', 'k', '-'].get? (wc.length - k) = some a ∧
        ciEq a '=' = false := by
      rcases (by omega : wc.length - k = 1 ∨ wc.length - k = 2) with hv | hv <;> rw [hv]
      · exact ⟨'k', rfl, by decide⟩
      · exact ⟨'-', rfl, by decide⟩
    obtain ⟨a, ha1, ha2⟩ := hax
    obtain ⟨x, hx1, hx2⟩ := ciStarts_get? hA ha1
    rw [hq] at hx1
    injection hx1 with hx1
    subst hx1
    rw [hx2] at ha2
    cases ha2
  · have hwin := alnumRun_get? hB (k := wc.length - k - 3) (c := '=') (by omega) ?_
    · rw [show isAln '=' = false from by decide] at hwin
      cases hwin
    · rw [List.get?_drop, show 3 + (wc.length - k - 3) = wc.length - k from by omega]
      exact hq

/-- No `ghp_…` match can start inside the text a `sub3` replacement
emits. -/
theorem noM1_sub3repl_append {wc t' : List Char} (h1 : 1 ≤ wc.length)
    (h8 : wc.length ≤ 8) (ht : noM1 t') : noM1 (wc ++ (eqRedacted ++ t')) := by
  intro j
  rcases Nat.lt_or_ge j wc.length with hj | hj
  · rw [List.drop_append_of_le_length (by omega)]
    exact match1_wsuffix_kill hj h8 rfl
  · rw [drop_append_ge hj]
    rcases Nat.lt_or_ge (j - wc.length) 15 with hj' | hj'
    · rw [List.drop_append_of_le_length (by simp [eqRedacted]; omega)]
      interval_cases h : (j - wc.length)
      all_goals exact match1_cons_false (by decide) _
    · rw [drop_append_ge (by simp [eqRedacted]; omega)]
      exact ht _

/-- No `sk-…` match can start inside the text a `sub3` replacement
emits. -/
theorem noM2_sub3repl_append {wc t' : List Char} (h1 : 1 ≤ wc.length)
    (h8 : wc.length ≤ 8) (ht : noM2 t') : noM2 (wc ++ (eqRedacted ++ t')) := by
  intro j
  rcases Nat.lt_or_ge j wc.length with hj | hj
  · rw [List.drop_append_of_le_length (by omega)]
    exact match2_wsuffix_kill hj h8 rfl
  · rw [drop_append_ge hj]
    rcases Nat.lt_or_ge (j - wc.length) 15 with hj' | hj'
    · rw [List.drop_append_of_le_length (by simp [eqRedacted]; omega)]
      interval_cases h : (j - wc.length)
      all_goals exact match2_cons_false (by decide) _
    · rw [drop_append_ge (by simp [eqRedacted]; omega)]
      exact ht _

/-- A `sub3` pass cannot create a `ghp_…` match. -/
theorem noM1_sub3 : ∀ z : List Char, noM1 z → noM1 (sub3 z) := by
  have H : ∀ (n : Nat) (z : List Char), z.length ≤ n → noM1 z → noM1 (sub3 z) := by
    intro n
    induction n with
    | zero =>
      intro z hz _
      rw [Nat.le_zero, List.length_eq_zero] at hz
      subst hz
      rw [sub3]
      exact noM1_nil
    | succ n ih =>
      intro z hz h
      cases z with
      | nil => rw [sub3]; exact noM1_nil
      | cons c rest =>
        cases hm : match3 (c :: rest) with
        | some pr =>
          obtain ⟨wch, aft⟩ := pr
          rw [sub3, hm]
          obtain ⟨w, hw, hcs, hwc, -, hdropEq, -⟩ := match3_some_spec hm
          have hwb := wlen_bounds hw
          have hwlen : w.length ≤ (c :: rest).length := ciStarts_length hcs
          have hwclen : wch.length = w.length := by
            rw [hwc, List.length_take]
            omega
          have hlen2 := match3_some_len (l := c :: rest) hm
          have htlen : (aft.dropWhile isNonSp).length ≤ n := by
            have := (List.dropWhile_sublist (l := aft) isNonSp).length_le
            simp only [List.length_cons] at hlen2 hz
            omega
          have htNoM : noM1 (aft.dropWhile isNonSp) := by
            rw [dropWhile_eq_drop, ← hdropEq, List.drop_drop]
            exact noM1_drop h _
          show noM1 (wch ++ eqRedacted ++ sub3 (aft.dropWhile isNonSp))
          rw [List.append_assoc]
          exact noM1_sub3repl_append (by omega) (by omega) (ih _ htlen htNoM)
        | none =>
          rw [sub3, hm]
          intro j
          cases j with
          | zero =>
            rw [List.drop_zero]
            refine match1_cons_sub3 ?_
            have := h 0
            rwa [List.drop_zero] at this
          | succ j =>
            rw [List.drop_succ_cons]
            refine ih _ ?_ ?_ j
            · simp only [List.length_cons] at hz
              omega
            · have := noM1_drop h 1
              rwa [show (c :: rest).drop 1 = rest from rfl] at this
  exact fun z => H z.length z le_rfl

/-- A `sub3` pass cannot create an `sk-…` match. -/
theorem noM2_sub3 : ∀ z : List Char, noM2 z → noM2 (sub3 z) := by
  have H : ∀ (n : Nat) (z : List Char), z.length ≤ n → noM2 z → noM2 (sub3 z) := by
    intro n
    induction n with
    | zero =>
      intro z hz _
      rw [Nat.le_zero, List.length_eq_zero] at hz
      subst hz
      rw [sub3]
      exact noM2_nil
    | succ n ih =>
      intro z hz h
      cases z with
      | nil => rw [sub3]; exact noM2_nil
      | cons c rest =>
        cases hm : match3 (c :: rest) with
        | some pr =>
          obtain ⟨wch, aft⟩ := pr
          rw [sub3, hm]
          obtain ⟨w, hw, hcs, hwc, -, hdropEq, -⟩ := match3_some_spec hm
          have hwb := wlen_bounds hw
          have hwlen : w.length ≤ (c :: rest).length := ciStarts_length hcs
          have hwclen : wch.length = w.length := by
            rw [hwc, List.length_take]
            omega
          have hlen2 := match3_some_len (l := c :: rest) hm
          have htlen : (aft.dropWhile isNonSp).length ≤ n := by
            have := (List.dropWhile_sublist (l := aft) isNonSp).length_le
            simp only [List.length_cons] at hlen2 hz
            omega
          have htNoM : noM2 (aft.dropWhile isNonSp) := by
            rw [dropWhile_eq_drop, ← hdropEq, List.drop_drop]
            exact noM2_drop h _
          show noM2 (wch ++ eqRedacted ++ sub3 (aft.dropWhile isNonSp))
          rw [List.append_assoc]
          exact noM2_sub3repl_append (by omega) (by omega) (ih _ htlen htNoM)
        | none =>
          rw [sub3, hm]
          intro j
          cases j with
          | zero =>
            rw [List.drop_zero]
            refine match2_cons_sub3 ?_
            have := h 0
            rwa [List.drop_zero] at this
          | succ j =>
            rw [List.drop_succ_cons]
            refine ih _ ?_ ?_ j
            · simp only [List.length_cons] at hz
              omega
            · have := noM2_drop h 1
              rwa [show (c :: rest).drop 1 = rest from rfl] at this
  exact fun z => H z.length z le_rfl

theorem lt_length_of_get? {α : Type} {l : List α} {k : Nat} {d : α}
    (h : l.get? k = some d) : k < l.length := by
  by_contra hh
  push_neg at hh
  rw [List.get?_eq_none.mpr hh] at h
  cases h

theorem drop_eq_cons_of_get? {α : Type} : ∀ {l : List α} {k : Nat} {d : α},
    l.get? k = some d → l.drop k = d :: l.drop (k + 1) := by
  intro l
  induction l with
  | nil => intro k d h; cases k <;> cases h
  | cons c t ih =>
    intro k d h
    cases k with
    | zero =>
      rw [List.get?_cons_zero] at h
      injection h with h
      subst h
      rfl
    | succ k =>
      rw [List.get?_cons_succ] at h
      rw [List.drop_succ_cons, ih h]
      rfl

/-- If no `word=value` alternative matches at the head of `c :: r`, the
same holds at the head of `c :: sub3 r`: the strings agree through the
first replaced `=`, and the first changed character is the non-space `*`
standing where a non-space run character stood. -/
theorem match3_cons_sub3 {c : Char} {r : List Char} (h : match3 (c :: r) = none) :
    match3 (c :: sub3 r) = none := by
  rcases sub3_structure' r with e | ⟨m, s, hm3, hmlen, heq, ⟨ch, rest, hdropr, hns⟩, he⟩
  · rwa [e]
  · by_contra hM
    obtain ⟨⟨w2c, aft2⟩, hsome⟩ := Option.ne_none_iff_exists'.mp hM
    obtain ⟨w2, hw2, hcs2, hw2c, hget2, hdrop2, ch2, rest2, hae2, hns2⟩ :=
      match3_some_spec hsome
    have hw2b := wlen_bounds hw2
    have hagree : ∀ j ≤ m + 1, (c :: sub3 r).get? j = (c :: r).get? j := by
      intro j hj
      cases j with
      | zero => rfl
      | succ j' =>
        rw [List.get?_cons_succ, List.get?_cons_succ]
        exact sub3_agree hmlen heq he j' (by omega)
    have hstar : (c :: sub3 r).get? (m + 2) = some '*' := by
      rw [show m + 2 = (m + 1) + 1 from rfl, List.get?_cons_succ, he,
        List.get?_append_right (by rw [List.length_take]; omega), List.length_take,
        show m + 1 - min m r.length = 1 from by omega]
      rfl
    have hold : (c :: r).get? (m + 2) = some ch := by
      rw [show m + 2 = (m + 1) + 1 from rfl, List.get?_cons_succ]
      have h0 : (r.drop (m + 1)).get? 0 = some ch := by rw [hdropr]; rfl
      rw [List.get?_drop] at h0
      simpa using h0
    rcases (by omega : w2.length ≤ m + 1 ∨ w2.length = m + 2 ∨ m + 3 ≤ w2.length) with
      hcase | hcase | hcase
    · have holdeq : (c :: r).get? w2.length = some '=' := by
        rw [← hagree w2.length (by omega)]
        exact hget2
      have hlen : w2.length < (c :: r).length := lt_length_of_get? holdeq
      have hs_old : ciStarts w2 (c :: r) = true := by
        refine ciStarts_of_get? (by omega) ?_
        intro k a x h1 h2
        have hk : k < w2.length := lt_length_of_get? h1
        obtain ⟨x', hx1', hx2'⟩ := ciStarts_get? hcs2 h1
        rw [hagree k (by omega)] at hx1'
        rw [h2] at hx1'
        injection hx1' with hx1'
        subst hx1'
        exact hx2'
      have hd : ∃ d, (c :: r).get? (w2.length + 1) = some d ∧ isNonSp d = true := by
        rcases (by omega : w2.length + 1 ≤ m + 1 ∨ w2.length + 1 = m + 2) with hcc | hcc
        · have hnew2 : (c :: sub3 r).get? (w2.length + 1) = some ch2 := by
            have h0 : ((c :: sub3 r).drop (w2.length + 1)).get? 0 = some ch2 := by
              rw [hdrop2, hae2]
              rfl
            rw [List.get?_drop] at h0
            simpa using h0
          refine ⟨ch2, ?_, hns2⟩
          rw [← hagree (w2.length + 1) hcc]
          exact hnew2
        · refine ⟨ch, ?_, hns⟩
          rw [hcc]
          exact hold
      obtain ⟨d, hd1, hd2⟩ := hd
      have hdcons := drop_eq_cons_of_get? hd1
      have htw := tryWord_some_intro hs_old holdeq hdcons hd2
      have hm3' := match3_eq_of_tryWord hw2 htw
      rw [hm3'] at h
      cases h
    · rw [hcase] at hget2
      rw [hstar] at hget2
      injection hget2 with hget2
      exact absurd hget2 (by decide)
    · have hga : ∃ a, w2.get? (m + 2) = some a := by
        cases hg : w2.get? (m + 2) with
        | none =>
          rw [List.get?_eq_none] at hg
          omega
        | some a => exact ⟨a, rfl⟩
      obtain ⟨a, hga⟩ := hga
      have hal := wlower hw2 a (List.get?_mem hga)
      obtain ⟨x, hx1, hx2⟩ := ciStarts_get? hcs2 hga
      rw [hstar] at hx1
      injection hx1 with hx1
      subst hx1
      have := ciEq_lower_ge hal hx2
      revert this
      decide

/-- Scanning a kept word followed by `=***REDACTED***` re-matches exactly
that word and re-emits the identical replacement, then continues after it
— provided what follows is empty or starts with whitespace, as the
maximality of the consumed `\S+` run guarantees. -/
theorem sub3_consume {w wc t' : List Char}
    (hw : w = tokenW ∨ w = keyW ∨ w = secretW ∨ w = passwordW)
    (hs : ciStarts w wc = true) (hlen : wc.length = w.length)
    (ht' : t' = [] ∨ ∃ d t'', t' = d :: t'' ∧ isNonSp d = false) :
    sub3 (wc ++ (eqRedacted ++ t')) = wc ++ (eqRedacted ++ sub3 t') := by
  have hwb := wlen_bounds hw
  have h1 : ciStarts w (wc ++ (eqRedacted ++ t')) = true := ciStarts_append_left _ hs
  have h2 : (wc ++ (eqRedacted ++ t')).get? w.length = some '=' := by
    rw [List.get?_append_right (by omega), show w.length - wc.length = 0 from by omega]
    rfl
  have h3 : (wc ++ (eqRedacted ++ t')).drop (w.length + 1) =
      '*' :: (['*', '*', 'R', 'E', 'D', 'A', 'C', 'T', 'E', 'D', '*', '*', '*'] ++ t') := by
    rw [drop_append_ge (by omega), show w.length + 1 - wc.length = 1 from by omega]
    rfl
  have htw := tryWord_some_intro h1 h2 h3 (by decide)
  have htake : (wc ++ (eqRedacted ++ t')).take w.length = wc := by
    rw [← hlen, List.take_left]
  have hmatch : match3 (wc ++ (eqRedacted ++ t')) =
      some (wc, '*' :: (['*', '*', 'R', 'E', 'D', 'A', 'C', 'T', 'E', 'D', '*', '*', '*'] ++ t')) := by
    have hm := match3_eq_of_tryWord hw htw
    rwa [htake] at hm
  cases wc with
  | nil =>
    exfalso
    rw [List.length_nil] at hlen
    omega
  | cons wc0 wcr =>
    rw [List.cons_append] at hmatch
    rw [List.cons_append, sub3, hmatch]
    show (wc0 :: wcr) ++ eqRedacted ++
        sub3 (('*' :: (['*', '*', 'R', 'E', 'D', 'A', 'C', 'T', 'E', 'D', '*', '*', '*'] ++ t')).dropWhile
          isNonSp) = wc0 :: (wcr ++ (eqRedacted ++ sub3 t'))
    have hdw : ('*' :: (['*', '*', 'R', 'E', 'D', 'A', 'C', 'T', 'E', 'D', '*', '*', '*'] ++ t')).dropWhile
        isNonSp = t' := by
      rw [show ('*' :: (['*', '*', 'R', 'E', 'D', 'A', 'C', 'T', 'E', 'D', '*', '*', '*'] ++ t')) =
          (['*', '*', '*', 'R', 'E', 'D', 'A', 'C', 'T', 'E', 'D', '*', '*', '*'] : List Char) ++ t'
        from rfl]
      rw [dropWhile_append_all t' (by decide)]
      rcases ht' with rfl | ⟨d, t'', rfl, hd⟩
      · rfl
      · rw [List.dropWhile_cons, if_neg (by rw [hd]; exact Bool.false_ne_true)]
    rw [hdw]
    simp [List.append_assoc]

/-- The third substitution is idempotent: every replacement it leaves in
its output re-matches to the identical text. -/
theorem sub3_idem : ∀ z : List Char, sub3 (sub3 z) = sub3 z := by
  have H : ∀ (n : Nat) (z : List Char), z.length ≤ n → sub3 (sub3 z) = sub3 z := by
    intro n
    induction n with
    | zero =>
      intro z hz
      rw [Nat.le_zero, List.length_eq_zero] at hz
      subst hz
      have h0 : sub3 ([] : List Char) = [] := by rw [sub3]
      rw [h0, h0]
    | succ n ih =>
      intro z hz
      cases z with
      | nil =>
        have h0 : sub3 ([] : List Char) = [] := by rw [sub3]
        rw [h0, h0]
      | cons c rest =>
        cases hm : match3 (c :: rest) with
        | none =>
          have hs : sub3 (c :: rest) = c :: sub3 rest := by rw [sub3, hm]
          rw [hs, sub3, match3_cons_sub3 hm]
          have := ih rest (by simp only [List.length_cons] at hz; omega)
          rw [this]
        | some pr =>
          obtain ⟨wch, aft⟩ := pr
          have hs : sub3 (c :: rest) = wch ++ eqRedacted ++ sub3 (aft.dropWhile isNonSp) := by
            rw [sub3, hm]
          obtain ⟨w, hw, hcs, hwc, -, -, -⟩ := match3_some_spec hm
          have hwb := wlen_bounds hw
          have hlen2 := match3_some_len hm
          have htlen : (aft.dropWhile isNonSp).length ≤ n := by
            have := (List.dropWhile_sublist (l := aft) isNonSp).length_le
            simp only [List.length_cons] at hlen2 hz
            omega
          have hIH := ih _ htlen
          have hcsw : ciStarts w wch = true := by
            rw [hwc]
            exact ciStarts_take hcs
          have hwlen : wch.length = w.length := by
            rw [hwc, List.length_take]
            have := ciStarts_length hcs
            omega
          have hshape : sub3 (aft.dropWhile isNonSp) = [] ∨
              ∃ d t3, sub3 (aft.dropWhile isNonSp) = d :: t3 ∧ isNonSp d = false := by
            rcases dropWhile_shape (p := isNonSp) aft with h0 | ⟨d, t3, h0, hd⟩
            · left
              rw [h0]
              rw [sub3]
            · right
              refine ⟨d, sub3 t3, ?_, hd⟩
              rw [h0, sub3, match3_none_space hd]
          rw [hs, List.append_assoc, sub3_consume hw hcsw hwlen hshape, hIH]
  exact fun z => H z.length z le_rfl

/-- C8: the sanitizer is idempotent — a second pass of the three masking
rules, applied in sequence against the cumulative result, changes
nothing. -/
theorem c8_sanitize_idempotent (x : String) :
    sanitize_for_logging (sanitize_for_logging x) = sanitize_for_logging x := by
  show (⟨sub3 (sub2 (sub1 (sub3 (sub2 (sub1 x.data)))))⟩ : String) =
    ⟨sub3 (sub2 (sub1 x.data))⟩
  congr 1
  have hn1c : noM1 (sub3 (sub2 (sub1 x.data))) :=
    noM1_sub3 _ (noM1_sub2 _ (noM1_sub1 x.data))
  have hn2b : noM2 (sub3 (sub2 (sub1 x.data))) := noM2_sub3 _ (noM2_sub2 _)
  rw [sub1_id_of_noM1 hn1c, sub2_id_of_noM2 hn2b, sub3_idem]
